import Mathlib

/-!
# Verification of the Shamir-like secret reconstruction program

Shallow embedding of `src/code.js` (a Shamir-style secret reconstruction
solver) and proofs about it.  JavaScript `BigInt` values are modelled as
`Int` (both are exact arbitrary-precision integers), strings as `List Char`
of Unicode code points (`for...of` in the source iterates code points), and
`throw` as the `Except` monad.  Each thrown `Error` of the source is one
constructor of `JsError`.
-/

/-- The errors the source can throw.
* `invalidDigit c base` models `Invalid digit '${ch}' for base ${base}`.
* `zeroDenominator` models `Zero denominator`.
* `divisionByZero` models `Division by zero`.
* `runtimeTypeError` models an uncaught JavaScript `TypeError`, i.e. the
  crash that happens when the source reads a property of `undefined`
  (e.g. `best.agrees[i]` when `best` was never replaced, or `shares[i].x`
  for an out-of-range index). -/
inductive JsError where
  | invalidDigit (c : Char) (base : Int)
  | zeroDenominator
  | divisionByZero
  | runtimeTypeError
deriving DecidableEq, Repr

/-! ## Base-N integer parser (`parseBigIntInBase`, src/code.js:6-19) -/

/-- The character class removed by JavaScript `String.prototype.trim`:
ECMAScript WhiteSpace and LineTerminator code points. -/
def jsWhitespaceB (c : Char) : Bool :=
  (9 ≤ c.toNat && c.toNat ≤ 13) || c.toNat = 32 || c.toNat = 160 ||
  c.toNat = 0x1680 || (0x2000 ≤ c.toNat && c.toNat ≤ 0x200A) ||
  c.toNat = 0x2028 || c.toNat = 0x2029 || c.toNat = 0x202F ||
  c.toNat = 0x205F || c.toNat = 0x3000 || c.toNat = 0xFEFF

/-- JavaScript `str.trim()`: drop leading and trailing whitespace. -/
def jsTrim (s : List Char) : List Char :=
  (((s.dropWhile jsWhitespaceB).reverse.dropWhile jsWhitespaceB)).reverse

/-- JavaScript `str.toLowerCase()` (Unicode Default Case Conversion),
restricted to the code points whose lowercase can land in the parser's
accepted digit region (code points 48-57 and 87-122): the ASCII letters
`A-Z` and U+212A KELVIN SIGN, whose lowercase is `k` and which the source
therefore accepts as the digit 20.  Every other code point's lowercase,
changed or not, stays outside that region (the one multi-character full
mapping, U+0130 to `i` + U+0307, is still rejected at the combining dot),
so mapping such a code point to itself preserves the parser's
success/failure outcome and its value on every string; only the character
reported inside an `InvalidDigit` error may then be the un-lowercased
one. -/
def jsToLower (c : Char) : Char :=
  if c.toNat = 0x212A then 'k' else c.toLower

/-- The digit value the source computes for one character of the trimmed,
lower-cased string: `ch - '0'` for `'0'..'9'`, otherwise `ch - 'a' + 10`
(which may be negative).  Mirrors src/code.js:11-12. -/
def digitVal (c : Char) : Int :=
  if '0' ≤ c ∧ c ≤ '9' then (c.toNat : Int) - ('0'.toNat : Int)
  else (c.toNat : Int) - ('a'.toNat : Int) + 10

/-- The accumulator loop of `parseBigIntInBase` (src/code.js:9-17):
`val = val * base + digit`, throwing on `digit < 0 || digit >= base`. -/
def parseLoop (base : Int) : List Char → Int → Except JsError Int
  | [], val => .ok val
  | c :: rest, val =>
    if digitVal c < 0 ∨ base ≤ digitVal c then .error (.invalidDigit c base)
    else parseLoop base rest (val * base + digitVal c)

/-- `parseBigIntInBase(str, base)` (src/code.js:6-19): trim, lower-case,
then run the digit loop starting from `0n`. -/
def parseBigIntInBase (s : List Char) (base : Int) : Except JsError Int :=
  parseLoop base ((jsTrim s).map jsToLower) 0

/-- The trimmed, lower-cased character sequence the parser actually reads. -/
def cleanChars (s : List Char) : List Char := (jsTrim s).map jsToLower

/-- Spec-side: every character of the cleaned string carries a digit value
admissible for `base`. -/
def digitsOk (s : List Char) (base : Int) : Prop :=
  ∀ c ∈ cleanChars s, 0 ≤ digitVal c ∧ digitVal c < base

instance (s : List Char) (base : Int) : Decidable (digitsOk s base) := by
  unfold digitsOk; infer_instance

/-- Spec-side: the positional value of a digit string,
`Σ digitVal cᵢ * base ^ (len - 1 - i)`. -/
def posVal (base : Int) : List Char → Int
  | [] => 0
  | c :: rest => digitVal c * base ^ rest.length + posVal base rest

theorem parseLoop_ok (base : Int) (l : List Char) (v : Int)
    (h : ∀ c ∈ l, 0 ≤ digitVal c ∧ digitVal c < base) :
    parseLoop base l v = .ok (v * base ^ l.length + posVal base l) := by
  induction l generalizing v with
  | nil => simp [parseLoop, posVal]
  | cons c rest ih =>
    have hc := h c (List.mem_cons_self _ _)
    have hrest : ∀ x ∈ rest, 0 ≤ digitVal x ∧ digitVal x < base :=
      fun x hx => h x (List.mem_cons_of_mem _ hx)
    simp only [parseLoop, posVal]
    rw [if_neg (by push_neg; omega)]
    rw [ih _ hrest]
    congr 1
    simp only [List.length_cons]
    ring

theorem parseLoop_error (base : Int) (l : List Char) (v : Int)
    (h : ¬ ∀ c ∈ l, 0 ≤ digitVal c ∧ digitVal c < base) :
    ∃ c ∈ l, parseLoop base l v = .error (.invalidDigit c base) := by
  induction l generalizing v with
  | nil => simp at h
  | cons c rest ih =>
    by_cases hc : 0 ≤ digitVal c ∧ digitVal c < base
    · have hrest : ¬ ∀ x ∈ rest, 0 ≤ digitVal x ∧ digitVal x < base := by
        intro hall
        apply h
        intro x hx
        rcases List.mem_cons.1 hx with rfl | hx
        · exact hc
        · exact hall x hx
      obtain ⟨c', hc', he⟩ := ih (v * base + digitVal c) hrest
      refine ⟨c', List.mem_cons_of_mem _ hc', ?_⟩
      simp only [parseLoop]
      rw [if_neg (by push_neg; omega)]
      exact he
    · refine ⟨c, List.mem_cons_self _ _, ?_⟩
      simp only [parseLoop]
      rw [if_pos (by push_neg at hc; omega)]

theorem posVal_nonneg (base : Int) (l : List Char) (hb : 0 ≤ base)
    (h : ∀ c ∈ l, 0 ≤ digitVal c) : 0 ≤ posVal base l := by
  induction l with
  | nil => simp [posVal]
  | cons c rest ih =>
    have := h c (List.mem_cons_self _ _)
    have hr := ih (fun x hx => h x (List.mem_cons_of_mem _ hx))
    have hp : (0:Int) ≤ base ^ rest.length := pow_nonneg hb _
    simp only [posVal]
    positivity

/-- C4 (amended).  For every string and base in [2,36], the parser fails
with `InvalidDigit` **iff** some character of the trimmed, lower-cased
string has a digit value (as computed by the source: `c - '0'` for
`'0'..'9'`, else `c - 'a' + 10`) that is negative or `≥ base`; otherwise it
returns the non-negative positional value of those digit values.  (The
source's digit-value formula also assigns values 4..9 to the six ASCII
characters between `'Z'` and `'a'`, so e.g. `'['` is accepted as the digit
4 in bases above 4 — this is where the original claim fails.) -/
theorem parseBigIntInBase_spec (s : List Char) (base : Int)
    (h2 : 2 ≤ base) (h36 : base ≤ 36) :
    ((∃ c ∈ cleanChars s, parseBigIntInBase s base = .error (.invalidDigit c base)) ↔
      ¬ digitsOk s base) ∧
    (digitsOk s base →
      parseBigIntInBase s base = .ok (posVal base (cleanChars s)) ∧
      0 ≤ posVal base (cleanChars s)) := by
  constructor
  · constructor
    · rintro ⟨c, hc, he⟩ hok
      have := parseLoop_ok base (cleanChars s) 0 hok
      rw [parseBigIntInBase] at he
      rw [show (jsTrim s).map jsToLower = cleanChars s from rfl] at he
      rw [this] at he
      exact absurd he (by simp)
    · intro hbad
      obtain ⟨c, hc, he⟩ := parseLoop_error base (cleanChars s) 0 hbad
      exact ⟨c, hc, by rw [parseBigIntInBase]; exact he⟩
  · intro hok
    refine ⟨?_, posVal_nonneg base _ (by omega) (fun c hc => (hok c hc).1)⟩
    have := parseLoop_ok base (cleanChars s) 0 hok
    rw [parseBigIntInBase]
    rw [show (jsTrim s).map jsToLower = cleanChars s from rfl, this]
    simp

/-- Witness for C4's amended theorem at a concrete input: parsing `"ff"` in
base 16 yields 255, and `"g"` in base 16 is rejected. -/
theorem parseBigIntInBase_spec_witness :
    ((∃ c ∈ cleanChars ['f', 'F'],
        parseBigIntInBase ['f', 'F'] 16 = .error (.invalidDigit c 16)) ↔
      ¬ digitsOk ['f', 'F'] 16) ∧
    (digitsOk ['f', 'F'] 16 →
      parseBigIntInBase ['f', 'F'] 16 = .ok (posVal 16 (cleanChars ['f', 'F'])) ∧
      0 ≤ posVal 16 (cleanChars ['f', 'F'])) :=
  parseBigIntInBase_spec ['f', 'F'] 16 (by decide) (by decide)

/-- Counterexample to C4 as stated: the string `"["` contains no character
that is a digit `0-9` or a letter `a-z`, so by the claim the parser must
fail on it; instead the source computes digit value `'[' - 'a' + 10 = 4`
and returns 4 in base 10. -/
theorem parseBigIntInBase_claim_counterexample :
    parseBigIntInBase ['['] 10 = .ok 4 ∧
    ¬ ∃ c ∈ (['['] : List Char), ('0' ≤ c ∧ c ≤ '9') ∨ ('a' ≤ c ∧ c ≤ 'z') := by
  constructor
  · simp [parseBigIntInBase, jsTrim, jsToLower, parseLoop, digitVal,
      jsWhitespaceB, Char.toLower]
  · decide

/-- The model reproduces the source's Unicode lowercasing where it is
observable: U+212A KELVIN SIGN lowercases to `k` and parses as the digit
20 in base 21 (and is rejected in base 20, where 20 ≥ base). -/
theorem parseBigIntInBase_kelvin :
    parseBigIntInBase [Char.ofNat 0x212A] 21 = .ok 20 ∧
    parseBigIntInBase [Char.ofNat 0x212A] 20 =
      .error (.invalidDigit 'k' 20) := by
  constructor <;> rfl

/-- C10.  For every base in [2,36], the parser returns 0 on the empty
string and on any all-whitespace string (trim leaves the empty string and
the digit loop starts from, and returns, 0). -/
theorem parseBigIntInBase_whitespace (s : List Char) (base : Int)
    (h2 : 2 ≤ base) (h36 : base ≤ 36)
    (hws : ∀ c ∈ s, jsWhitespaceB c) :
    parseBigIntInBase s base = .ok 0 := by
  have htrim : jsTrim s = [] := by
    unfold jsTrim
    have h1 : s.dropWhile jsWhitespaceB = [] :=
      List.dropWhile_eq_nil_iff.2 hws
    rw [h1]
    simp
  rw [parseBigIntInBase, htrim]
  simp [parseLoop]

/-- Witness for C10 at a concrete input: two spaces in base 16 parse to 0
(and the empty string in base 2 parses to 0). -/
theorem parseBigIntInBase_whitespace_witness :
    parseBigIntInBase [' ', ' '] 16 = .ok 0 ∧
    parseBigIntInBase [] 2 = .ok 0 :=
  ⟨parseBigIntInBase_whitespace [' ', ' '] 16 (by decide) (by decide) (by decide),
   parseBigIntInBase_whitespace [] 2 (by decide) (by decide) (by decide)⟩

/-! ## Exact rational arithmetic (`Rational`, src/code.js:21-44) -/

/-- `bigIntAbs` (src/code.js:21). -/
def bigIntAbs (a : Int) : Int := if a < 0 then -a else a

/-- `bigIntGcd` (src/code.js:22-26): the Euclidean `while` loop on the
absolute values.  `Nat.gcd` is that same Euclidean recursion
(`gcd a b = gcd (b % a) a`), so the loop's value is `Nat.gcd |a| |b|`. -/
def bigIntGcd (a b : Int) : Int :=
  ((Nat.gcd (bigIntAbs a).toNat (bigIntAbs b).toNat : Nat) : Int)

/-- The raw fraction record: fields `n` and `d` as stored on a `Rational`
instance (src/code.js:28-35). -/
structure Rational where
  n : Int
  d : Int
deriving DecidableEq, Repr

/-- The `Rational` constructor (src/code.js:29-35): reject a zero
denominator, move the sign to the numerator, divide both parts by their
gcd.  JavaScript `BigInt` division truncates toward zero; here the divisor
divides both parts exactly, so every integer-division convention computes
the same quotient and `Int./` is faithful. -/
def Rational.make (n : Int) (d : Int := 1) : Except JsError Rational :=
  if d = 0 then .error .zeroDenominator
  else
    let n' := if d < 0 then -n else n
    let d' := if d < 0 then -d else d
    let g := bigIntGcd n' d'
    .ok ⟨n' / g, d' / g⟩

/-- `Rational.fromBigInt` (src/code.js:36). -/
def Rational.fromBigInt (x : Int) : Except JsError Rational := Rational.make x 1

/-- `Rational.prototype.add` (src/code.js:37). -/
def Rational.add (a b : Rational) : Except JsError Rational :=
  Rational.make (a.n * b.d + b.n * a.d) (a.d * b.d)

/-- `Rational.prototype.sub` (src/code.js:38). -/
def Rational.sub (a b : Rational) : Except JsError Rational :=
  Rational.make (a.n * b.d - b.n * a.d) (a.d * b.d)

/-- `Rational.prototype.mul` (src/code.js:39). -/
def Rational.mul (a b : Rational) : Except JsError Rational :=
  Rational.make (a.n * b.n) (a.d * b.d)

/-- `Rational.prototype.div` (src/code.js:40-43). -/
def Rational.div (a b : Rational) : Except JsError Rational :=
  if b.n = 0 then .error .divisionByZero
  else Rational.make (a.n * b.d) (a.d * b.n)

/-- Spec-side: a `Rational` in reduced canonical form — strictly positive
denominator and coprime numerator/denominator. -/
def Rational.Normal (r : Rational) : Prop :=
  0 < r.d ∧ Nat.Coprime r.n.natAbs r.d.natAbs

instance (r : Rational) : Decidable r.Normal := by
  unfold Rational.Normal; infer_instance

/-- Spec-side: the exact rational number a `Rational` denotes. -/
def Rational.toRat (r : Rational) : ℚ := (r.n : ℚ) / (r.d : ℚ)

theorem bigIntAbs_toNat (a : Int) : (bigIntAbs a).toNat = a.natAbs := by
  unfold bigIntAbs; split <;> omega

theorem bigIntGcd_eq (a b : Int) : bigIntGcd a b = (Int.gcd a b : Int) := by
  unfold bigIntGcd Int.gcd
  rw [bigIntAbs_toNat, bigIntAbs_toNat]

theorem Rational.make_ok (n d : Int) (hd : d ≠ 0) :
    ∃ r, Rational.make n d = .ok r ∧ r.Normal ∧ r.toRat = (n : ℚ) / (d : ℚ) := by
  set n' : Int := if d < 0 then -n else n with hn'
  set d' : Int := if d < 0 then -d else d with hd'
  have hd'pos : 0 < d' := by rw [hd']; split <;> omega
  have hval : (n' : ℚ) / (d' : ℚ) = (n : ℚ) / (d : ℚ) := by
    rw [hn', hd']
    split
    · push_cast; rw [neg_div_neg_eq]
    · rfl
  set g : Int := bigIntGcd n' d' with hg
  have hgeq : g = (Int.gcd n' d' : Int) := bigIntGcd_eq n' d'
  have hgcdpos : 0 < Int.gcd n' d' := Int.gcd_pos_of_ne_zero_right n' (by omega)
  have hgpos : 0 < g := by rw [hgeq]; exact_mod_cast hgcdpos
  obtain ⟨A, hA⟩ : g ∣ n' := by rw [hgeq]; exact Int.gcd_dvd_left
  obtain ⟨B, hB⟩ : g ∣ d' := by rw [hgeq]; exact Int.gcd_dvd_right
  have hnA : n' / g = A := by rw [hA, Int.mul_ediv_cancel_left _ (by omega)]
  have hdB : d' / g = B := by rw [hB, Int.mul_ediv_cancel_left _ (by omega)]
  have hBpos : 0 < B := by nlinarith
  have hgnat : g.natAbs = Int.gcd n' d' := by rw [hgeq, Int.natAbs_ofNat]
  have hAn : A.natAbs = n'.natAbs / Int.gcd n' d' := by
    have h1 : n'.natAbs = Int.gcd n' d' * A.natAbs := by
      conv_lhs => rw [hA]
      rw [Int.natAbs_mul, hgnat]
    rw [h1, Nat.mul_div_cancel_left _ hgcdpos]
  have hBn : B.natAbs = d'.natAbs / Int.gcd n' d' := by
    have h1 : d'.natAbs = Int.gcd n' d' * B.natAbs := by
      conv_lhs => rw [hB]
      rw [Int.natAbs_mul, hgnat]
    rw [h1, Nat.mul_div_cancel_left _ hgcdpos]
  have hcop : Nat.Coprime A.natAbs B.natAbs := by
    rw [hAn, hBn]
    exact Nat.coprime_div_gcd_div_gcd hgcdpos
  refine ⟨⟨n' / g, d' / g⟩, ?_, ⟨?_, ?_⟩, ?_⟩
  · unfold Rational.make
    rw [if_neg hd]
  · simpa [hdB] using hBpos
  · simpa [hnA, hdB] using hcop
  · show ((n' / g : Int) : ℚ) / ((d' / g : Int) : ℚ) = (n : ℚ) / (d : ℚ)
    rw [hnA, hdB, ← hval, hA, hB]
    push_cast
    rw [mul_div_mul_left]
    exact_mod_cast hgpos.ne'

theorem Rational.make_normal {n d : Int} {r : Rational}
    (h : Rational.make n d = .ok r) : r.Normal := by
  by_cases hd : d = 0
  · rw [hd] at h; exact absurd h (by simp [Rational.make])
  · obtain ⟨s, hs, hnorm, _⟩ := Rational.make_ok n d hd
    rw [hs] at h
    injection h with h
    exact h ▸ hnorm

theorem Rational.make_toRat {n d : Int} {r : Rational} (hd : d ≠ 0)
    (h : Rational.make n d = .ok r) : r.toRat = (n : ℚ) / (d : ℚ) := by
  obtain ⟨s, hs, _, hval⟩ := Rational.make_ok n d hd
  rw [hs] at h
  injection h with h
  exact h ▸ hval

/-- The constructor is the identity on integer fractions `m / 1`. -/
theorem Rational.make_int (m : Int) : Rational.make m 1 = .ok ⟨m, 1⟩ := by
  unfold Rational.make bigIntGcd bigIntAbs
  norm_num

theorem Rational.fromBigInt_eq (m : Int) : Rational.fromBigInt m = .ok ⟨m, 1⟩ :=
  Rational.make_int m

theorem Rational.add_ok (a b : Rational) (ha : a.d ≠ 0) (hb : b.d ≠ 0) :
    ∃ r, a.add b = .ok r ∧ r.Normal ∧ r.toRat = a.toRat + b.toRat := by
  obtain ⟨r, hr, hnorm, hval⟩ :=
    Rational.make_ok (a.n * b.d + b.n * a.d) (a.d * b.d) (mul_ne_zero ha hb)
  refine ⟨r, hr, hnorm, ?_⟩
  rw [hval]
  unfold Rational.toRat
  have ha' : (a.d : ℚ) ≠ 0 := Int.cast_ne_zero.2 ha
  have hb' : (b.d : ℚ) ≠ 0 := Int.cast_ne_zero.2 hb
  field_simp

theorem Rational.sub_ok (a b : Rational) (ha : a.d ≠ 0) (hb : b.d ≠ 0) :
    ∃ r, a.sub b = .ok r ∧ r.Normal ∧ r.toRat = a.toRat - b.toRat := by
  obtain ⟨r, hr, hnorm, hval⟩ :=
    Rational.make_ok (a.n * b.d - b.n * a.d) (a.d * b.d) (mul_ne_zero ha hb)
  refine ⟨r, hr, hnorm, ?_⟩
  rw [hval]
  unfold Rational.toRat
  have ha' : (a.d : ℚ) ≠ 0 := Int.cast_ne_zero.2 ha
  have hb' : (b.d : ℚ) ≠ 0 := Int.cast_ne_zero.2 hb
  field_simp
  ring

theorem Rational.mul_ok (a b : Rational) (ha : a.d ≠ 0) (hb : b.d ≠ 0) :
    ∃ r, a.mul b = .ok r ∧ r.Normal ∧ r.toRat = a.toRat * b.toRat := by
  obtain ⟨r, hr, hnorm, hval⟩ :=
    Rational.make_ok (a.n * b.n) (a.d * b.d) (mul_ne_zero ha hb)
  refine ⟨r, hr, hnorm, ?_⟩
  rw [hval]
  unfold Rational.toRat
  have ha' : (a.d : ℚ) ≠ 0 := Int.cast_ne_zero.2 ha
  have hb' : (b.d : ℚ) ≠ 0 := Int.cast_ne_zero.2 hb
  field_simp

theorem Rational.div_ok (a b : Rational) (ha : a.d ≠ 0) (hb : b.d ≠ 0)
    (hbn : b.n ≠ 0) :
    ∃ r, a.div b = .ok r ∧ r.Normal ∧ r.toRat = a.toRat / b.toRat := by
  unfold Rational.div
  rw [if_neg hbn]
  obtain ⟨r, hr, hnorm, hval⟩ :=
    Rational.make_ok (a.n * b.d) (a.d * b.n) (mul_ne_zero ha hbn)
  refine ⟨r, hr, hnorm, ?_⟩
  rw [hval]
  unfold Rational.toRat
  have ha' : (a.d : ℚ) ≠ 0 := Int.cast_ne_zero.2 ha
  have hb' : (b.d : ℚ) ≠ 0 := Int.cast_ne_zero.2 hb
  have hbn' : (b.n : ℚ) ≠ 0 := Int.cast_ne_zero.2 hbn
  field_simp

theorem Rational.div_zero_num (a b : Rational) (hbn : b.n = 0) :
    a.div b = .error .divisionByZero := by
  unfold Rational.div
  rw [if_pos hbn]

/-- A normal `Rational` whose value is an integer is literally `⟨m, 1⟩`. -/
theorem Rational.normal_eq_int {r : Rational} (hr : r.Normal) {m : Int}
    (h : r.toRat = (m : ℚ)) : r = ⟨m, 1⟩ := by
  obtain ⟨hpos, hcop⟩ := hr
  have hd0 : (r.d : ℚ) ≠ 0 := Int.cast_ne_zero.2 (by omega)
  have hnum : r.n = m * r.d := by
    have : (r.n : ℚ) = (m : ℚ) * (r.d : ℚ) := by
      rw [← h]; unfold Rational.toRat; field_simp
    exact_mod_cast this
  have hdvd : r.d.natAbs ∣ r.n.natAbs := by
    rw [hnum, Int.natAbs_mul]
    exact Dvd.intro_left _ rfl
  have hd1 : r.d.natAbs = 1 := Nat.eq_one_of_dvd_coprimes hcop hdvd (dvd_refl _)
  have hd1' : r.d = 1 := by omega
  cases r with
  | mk rn rd =>
    simp only at hnum hd1' ⊢
    subst hd1'
    simp at hnum
    simp [hnum]

/-- A normal `Rational` with denominator 1 denotes exactly its numerator. -/
theorem Rational.d_one_iff_int {r : Rational} (hr : r.Normal) :
    r.d = 1 ↔ ∃ m : Int, r.toRat = (m : ℚ) := by
  constructor
  · intro h1
    exact ⟨r.n, by unfold Rational.toRat; rw [h1]; simp⟩
  · rintro ⟨m, hm⟩
    rw [Rational.normal_eq_int hr hm]

/-- C6.  Every `Rational` produced by the constructor or by `add`, `sub`,
`mul`, `div` is in reduced canonical form: positive denominator and
`gcd(|n|, d) = 1`; and for such values `d = 1` exactly characterizes the
integers. -/
theorem rational_canonical_invariant :
    (∀ (num den : Int) (r : Rational), Rational.make num den = .ok r → r.Normal) ∧
    (∀ a b r : Rational, a.add b = .ok r → r.Normal) ∧
    (∀ a b r : Rational, a.sub b = .ok r → r.Normal) ∧
    (∀ a b r : Rational, a.mul b = .ok r → r.Normal) ∧
    (∀ a b r : Rational, a.div b = .ok r → r.Normal) ∧
    (∀ r : Rational, r.Normal → (r.d = 1 ↔ ∃ m : Int, r.toRat = (m : ℚ))) := by
  refine ⟨fun _ _ _ h => Rational.make_normal h,
          fun _ _ _ h => Rational.make_normal h,
          fun _ _ _ h => Rational.make_normal h,
          fun _ _ _ h => Rational.make_normal h,
          fun a b r h => ?_,
          fun _ h => Rational.d_one_iff_int h⟩
  unfold Rational.div at h
  by_cases hbn : b.n = 0
  · rw [if_pos hbn] at h; exact absurd h (by simp)
  · rw [if_neg hbn] at h; exact Rational.make_normal h

/-- Witness for C6 at concrete inputs: each operation applied to explicit
fractions, with the invariant evaluated on the result. -/
theorem rational_canonical_invariant_witness :
    (Rational.mk (-3) 2).Normal ∧ (Rational.mk 2 3).Normal ∧
    (Rational.mk 1 3).Normal ∧ (Rational.mk 1 2).Normal ∧
    ((Rational.mk 2 1).d = 1 ↔ ∃ m : Int, (Rational.mk 2 1).toRat = (m : ℚ)) :=
  ⟨rational_canonical_invariant.1 6 (-4) ⟨-3, 2⟩ rfl,
   rational_canonical_invariant.2.1 ⟨1, 2⟩ ⟨1, 6⟩ ⟨2, 3⟩ rfl,
   rational_canonical_invariant.2.2.1 ⟨1, 2⟩ ⟨1, 6⟩ ⟨1, 3⟩ rfl,
   rational_canonical_invariant.2.2.2.1 ⟨2, 3⟩ ⟨3, 4⟩ ⟨1, 2⟩ rfl,
   rational_canonical_invariant.2.2.2.2.2 ⟨2, 1⟩ (by constructor <;> decide)⟩

/-! ## Lagrange interpolation (`lagrangeEvalAt`, src/code.js:46-63) -/

/-- One interpolation point `{x, y}` as passed to `lagrangeEvalAt`. -/
structure Pt where
  x : Int
  y : Int
deriving DecidableEq, Repr

/-- The inner loop of `lagrangeEvalAt` (src/code.js:53-58): over the
running point indices, skipping `j = i`, multiply `num` by
`new Rational(x0 - xj, 1n)` and `den` by `new Rational(xi - xj, 1n)`. -/
def lagrangeProd (pts : List Pt) (x0 : Int) (i : Fin pts.length) :
    List (Fin pts.length) → Rational → Rational → Except JsError (Rational × Rational)
  | [], num, den => .ok (num, den)
  | j :: js, num, den =>
    if j = i then lagrangeProd pts x0 i js num den
    else do
      let nf ← Rational.make (x0 - (pts.get j).x) 1
      let num' ← num.mul nf
      let df ← Rational.make ((pts.get i).x - (pts.get j).x) 1
      let den' ← den.mul df
      lagrangeProd pts x0 i js num' den'

/-- The outer loop of `lagrangeEvalAt` (src/code.js:48-61): for each point
index `i`, build the basis numerator/denominator (both initialised to
`new Rational(1n, 1n)`, i.e. `⟨1, 1⟩`), divide, multiply by `yᵢ` and add
into the running sum. -/
def lagrangeSum (pts : List Pt) (x0 : Int) :
    List (Fin pts.length) → Rational → Except JsError Rational
  | [], sum => .ok sum
  | i :: rest, sum => do
    let p ← lagrangeProd pts x0 i (List.finRange pts.length) ⟨1, 1⟩ ⟨1, 1⟩
    let li ← p.1.div p.2
    let yi ← Rational.fromBigInt (pts.get i).y
    let t ← yi.mul li
    let sum' ← sum.add t
    lagrangeSum pts x0 rest sum'

/-- `lagrangeEvalAt(points, x0)` (src/code.js:46-63): the running sum is
initialised to `new Rational(0n, 1n)`, i.e. `⟨0, 1⟩`. -/
def lagrangeEvalAt (pts : List Pt) (x0 : Int) : Except JsError Rational :=
  lagrangeSum pts x0 (List.finRange pts.length) ⟨0, 1⟩

/-- The integer numerator product accumulated for basis index `i`. -/
def numP (pts : List Pt) (x0 : Int) (i : Fin pts.length) : Int :=
  ((List.finRange pts.length).map
    (fun j => if j = i then 1 else x0 - (pts.get j).x)).prod

/-- The integer denominator product accumulated for basis index `i`. -/
def denP (pts : List Pt) (i : Fin pts.length) : Int :=
  ((List.finRange pts.length).map
    (fun j => if j = i then 1 else (pts.get i).x - (pts.get j).x)).prod

/-- Spec-side: one term of the exact Lagrange sum,
`yᵢ * ∏_{j ≠ i} (x0 - xⱼ) / (xᵢ - xⱼ)` over ℚ. -/
def lagrangeTerm (pts : List Pt) (x0 : Int) (i : Fin pts.length) : ℚ :=
  ((pts.get i).y : ℚ) *
    ∏ j ∈ Finset.univ.erase i,
      ((x0 : ℚ) - ((pts.get j).x : ℚ)) / (((pts.get i).x : ℚ) - ((pts.get j).x : ℚ))

/-- Spec-side: the value of the exact rational Lagrange interpolation
formula, `Σᵢ yᵢ * ∏_{j ≠ i} (x0 - xⱼ)/(xᵢ - xⱼ)`. -/
def lagrangeValue (pts : List Pt) (x0 : Int) : ℚ :=
  ∑ i : Fin pts.length, lagrangeTerm pts x0 i

theorem ok_bind {ε α β : Type} (a : α) (f : α → Except ε β) :
    (Except.ok a >>= f) = f a := rfl

theorem error_bind {ε α β : Type} (e : ε) (f : α → Except ε β) :
    ((Except.error e : Except ε α) >>= f) = Except.error e := rfl

theorem Rational.mul_int (a c : Int) :
    Rational.mul ⟨a, 1⟩ ⟨c, 1⟩ = .ok ⟨a * c, 1⟩ := by
  unfold Rational.mul
  simp only [mul_one]
  exact Rational.make_int (a * c)

theorem lagrangeProd_ok (pts : List Pt) (x0 : Int) (i : Fin pts.length)
    (js : List (Fin pts.length)) (a b : Int) :
    lagrangeProd pts x0 i js ⟨a, 1⟩ ⟨b, 1⟩ =
      .ok (⟨a * (js.map (fun j => if j = i then 1 else x0 - (pts.get j).x)).prod, 1⟩,
           ⟨b * (js.map (fun j => if j = i then 1 else (pts.get i).x - (pts.get j).x)).prod, 1⟩) := by
  induction js generalizing a b with
  | nil => simp [lagrangeProd]
  | cons j js ih =>
    by_cases hj : j = i
    · rw [lagrangeProd, if_pos hj, ih]
      simp [hj]
    · rw [lagrangeProd, if_neg hj]
      rw [show (do
            let nf ← Rational.make (x0 - (pts.get j).x) 1
            let num' ← Rational.mul ⟨a, 1⟩ nf
            let df ← Rational.make ((pts.get i).x - (pts.get j).x) 1
            let den' ← Rational.mul ⟨b, 1⟩ df
            lagrangeProd pts x0 i js num' den' : Except JsError (Rational × Rational)) =
          lagrangeProd pts x0 i js ⟨a * (x0 - (pts.get j).x), 1⟩
            ⟨b * ((pts.get i).x - (pts.get j).x), 1⟩ by
        rw [Rational.make_int, ok_bind, Rational.mul_int, ok_bind,
          Rational.make_int, ok_bind, Rational.mul_int, ok_bind]]
      rw [ih]
      simp [hj, mul_assoc]

theorem listIte_prod_eq_finset {M : Type} [CommMonoid M] {n : Nat}
    (i : Fin n) (f : Fin n → M) :
    ((List.finRange n).map (fun j => if j = i then 1 else f j)).prod =
      ∏ j ∈ Finset.univ.erase i, f j := by
  have h1 : ((List.finRange n).map (fun j => if j = i then 1 else f j)).prod =
      ∏ j : Fin n, (if j = i then 1 else f j) := (Fin.prod_univ_def _).symm
  rw [h1, ← Finset.mul_prod_erase Finset.univ _ (Finset.mem_univ i)]
  rw [if_pos rfl, one_mul]
  exact Finset.prod_congr rfl (fun j hj => if_neg (Finset.ne_of_mem_erase hj))

theorem numP_eq (pts : List Pt) (x0 : Int) (i : Fin pts.length) :
    numP pts x0 i = ∏ j ∈ Finset.univ.erase i, (x0 - (pts.get j).x) :=
  listIte_prod_eq_finset i _

theorem denP_eq (pts : List Pt) (i : Fin pts.length) :
    denP pts i = ∏ j ∈ Finset.univ.erase i, ((pts.get i).x - (pts.get j).x) :=
  listIte_prod_eq_finset i _

theorem denP_eq_zero_iff (pts : List Pt) (i : Fin pts.length) :
    denP pts i = 0 ↔ ∃ j, j ≠ i ∧ (pts.get i).x = (pts.get j).x := by
  rw [denP_eq, Finset.prod_eq_zero_iff]
  constructor
  · rintro ⟨j, hj, h0⟩
    exact ⟨j, Finset.ne_of_mem_erase hj, by omega⟩
  · rintro ⟨j, hj, hx⟩
    exact ⟨j, Finset.mem_erase.2 ⟨hj, Finset.mem_univ j⟩, by omega⟩

theorem ratio_numP_denP (pts : List Pt) (x0 : Int) (i : Fin pts.length) :
    ((numP pts x0 i : ℚ)) / ((denP pts i : ℚ)) =
      ∏ j ∈ Finset.univ.erase i,
        ((x0 : ℚ) - ((pts.get j).x : ℚ)) / (((pts.get i).x : ℚ) - ((pts.get j).x : ℚ)) := by
  rw [numP_eq, denP_eq]
  push_cast
  rw [Finset.prod_div_distrib]

theorem lagrangeStep_ok (pts : List Pt) (x0 : Int) (i : Fin pts.length)
    (s : Rational) (hs : s.Normal) (hden : denP pts i ≠ 0)
    (rest : List (Fin pts.length)) :
    ∃ s', s'.Normal ∧ s'.toRat = s.toRat + lagrangeTerm pts x0 i ∧
      lagrangeSum pts x0 (i :: rest) s = lagrangeSum pts x0 rest s' := by
  have hp := lagrangeProd_ok pts x0 i (List.finRange pts.length) 1 1
  simp only [one_mul] at hp
  obtain ⟨li, hli, hlinorm, hlival⟩ :=
    Rational.div_ok ⟨numP pts x0 i, 1⟩ ⟨denP pts i, 1⟩ one_ne_zero one_ne_zero hden
  obtain ⟨t, ht, htnorm, htval⟩ :=
    Rational.mul_ok ⟨(pts.get i).y, 1⟩ li one_ne_zero (by exact_mod_cast hlinorm.1.ne')
  obtain ⟨s', hs', hs'norm, hs'val⟩ :=
    Rational.add_ok s t (by exact_mod_cast hs.1.ne') (by exact_mod_cast htnorm.1.ne')
  refine ⟨s', hs'norm, ?_, ?_⟩
  · have h1 : (Rational.mk (pts.get i).y 1).toRat = ((pts.get i).y : ℚ) := by
      unfold Rational.toRat; norm_num
    have h2 : (Rational.mk (numP pts x0 i) 1).toRat / (Rational.mk (denP pts i) 1).toRat
        = (numP pts x0 i : ℚ) / (denP pts i : ℚ) := by
      unfold Rational.toRat; norm_num
    rw [hs'val, htval, hlival, h1, h2, ratio_numP_denP]
    simp only [lagrangeTerm]
  · have hp2 : lagrangeProd pts x0 i (List.finRange pts.length) ⟨1, 1⟩ ⟨1, 1⟩ =
        .ok (⟨numP pts x0 i, 1⟩, ⟨denP pts i, 1⟩) := hp
    rw [lagrangeSum]
    simp only [hp2, ok_bind, hli, Rational.fromBigInt_eq, ht, hs']

theorem lagrangeStep_err (pts : List Pt) (x0 : Int) (i : Fin pts.length)
    (s : Rational) (hden : denP pts i = 0) (rest : List (Fin pts.length)) :
    lagrangeSum pts x0 (i :: rest) s = .error .divisionByZero := by
  have hp := lagrangeProd_ok pts x0 i (List.finRange pts.length) 1 1
  simp only [one_mul] at hp
  have hp2 : lagrangeProd pts x0 i (List.finRange pts.length) ⟨1, 1⟩ ⟨1, 1⟩ =
      .ok (⟨numP pts x0 i, 1⟩, ⟨denP pts i, 1⟩) := hp
  have hdiv : (Rational.mk (numP pts x0 i) 1).div ⟨denP pts i, 1⟩ =
      .error .divisionByZero := Rational.div_zero_num _ _ hden
  rw [lagrangeSum]
  simp only [hp2, ok_bind, hdiv, error_bind]

theorem lagrangeSum_ok (pts : List Pt) (x0 : Int) (is : List (Fin pts.length))
    (h : ∀ i ∈ is, denP pts i ≠ 0) (s : Rational) (hs : s.Normal) :
    ∃ r, lagrangeSum pts x0 is s = .ok r ∧ r.Normal ∧
      r.toRat = s.toRat + (is.map (lagrangeTerm pts x0)).sum := by
  induction is generalizing s with
  | nil => exact ⟨s, rfl, hs, by simp⟩
  | cons i is ih =>
    obtain ⟨s', hs'norm, hs'val, hstep⟩ :=
      lagrangeStep_ok pts x0 i s hs (h i (List.mem_cons_self _ _)) is
    obtain ⟨r, hr, hrnorm, hrval⟩ :=
      ih (fun j hj => h j (List.mem_cons_of_mem _ hj)) s' hs'norm
    refine ⟨r, by rw [hstep]; exact hr, hrnorm, ?_⟩
    rw [hrval, hs'val]
    simp only [List.map_cons, List.sum_cons]
    ring

theorem lagrangeSum_err (pts : List Pt) (x0 : Int) (is : List (Fin pts.length))
    (hbad : ∃ i ∈ is, denP pts i = 0) (s : Rational) (hs : s.Normal) :
    lagrangeSum pts x0 is s = .error .divisionByZero := by
  induction is generalizing s with
  | nil => simp at hbad
  | cons i is ih =>
    by_cases hi : denP pts i = 0
    · exact lagrangeStep_err pts x0 i s hi is
    · obtain ⟨s', hs'norm, _, hstep⟩ := lagrangeStep_ok pts x0 i s hs hi is
      rw [hstep]
      apply ih _ s' hs'norm
      obtain ⟨j, hj, hj0⟩ := hbad
      rcases List.mem_cons.1 hj with rfl | hj'
      · exact absurd hj0 hi
      · exact ⟨j, hj', hj0⟩

theorem zeroOneNormal : (Rational.mk 0 1).Normal := by constructor <;> decide

/-- Success and exact value of `lagrangeEvalAt` on pairwise-distinct
x-coordinates (index form). -/
theorem lagrangeEvalAt_ok (pts : List Pt) (x0 : Int)
    (hdist : ∀ i j : Fin pts.length, i ≠ j → (pts.get i).x ≠ (pts.get j).x) :
    ∃ r, lagrangeEvalAt pts x0 = .ok r ∧ r.Normal ∧
      r.toRat = lagrangeValue pts x0 := by
  have h : ∀ i ∈ List.finRange pts.length, denP pts i ≠ 0 := by
    intro i _ h0
    obtain ⟨j, hji, hx⟩ := (denP_eq_zero_iff pts i).1 h0
    exact hdist i j (Ne.symm hji) hx
  obtain ⟨r, hr, hrnorm, hrval⟩ :=
    lagrangeSum_ok pts x0 (List.finRange pts.length) h ⟨0, 1⟩ zeroOneNormal
  refine ⟨r, hr, hrnorm, ?_⟩
  rw [hrval]
  have h0 : (Rational.mk 0 1).toRat = 0 := by unfold Rational.toRat; norm_num
  rw [h0, zero_add, lagrangeValue, Fin.sum_univ_def]

/-- `lagrangeEvalAt` fails with `DivisionByZero` whenever two points share
an x-coordinate. -/
theorem lagrangeEvalAt_dup (pts : List Pt) (x0 : Int)
    (hdup : ∃ i j : Fin pts.length, i ≠ j ∧ (pts.get i).x = (pts.get j).x) :
    lagrangeEvalAt pts x0 = .error .divisionByZero := by
  obtain ⟨i, j, hij, hx⟩ := hdup
  apply lagrangeSum_err pts x0 _ _ _ zeroOneNormal
  exact ⟨i, List.mem_finRange i, (denP_eq_zero_iff pts i).2 ⟨j, Ne.symm hij, hx⟩⟩

/-- A successful interpolation implies pairwise-distinct x-coordinates. -/
theorem lagrangeEvalAt_ok_distinct {pts : List Pt} {x0 : Int} {r : Rational}
    (h : lagrangeEvalAt pts x0 = .ok r) :
    ∀ i j : Fin pts.length, i ≠ j → (pts.get i).x ≠ (pts.get j).x := by
  intro i j hij hx
  rw [lagrangeEvalAt_dup pts x0 ⟨i, j, hij, hx⟩] at h
  exact absurd h (by simp)

/-- The exact Lagrange formula evaluated at a node returns that node's y. -/
theorem lagrangeValue_node (pts : List Pt)
    (hdist : ∀ i j : Fin pts.length, i ≠ j → (pts.get i).x ≠ (pts.get j).x)
    (m : Fin pts.length) :
    lagrangeValue pts (pts.get m).x = ((pts.get m).y : ℚ) := by
  unfold lagrangeValue
  rw [Finset.sum_eq_single m]
  · unfold lagrangeTerm
    rw [Finset.prod_congr rfl (fun j hj => ?_), Finset.prod_const_one, mul_one]
    have hjm : (pts.get m).x ≠ (pts.get j).x :=
      hdist m j (Ne.symm (Finset.ne_of_mem_erase hj))
    have : ((pts.get m).x : ℚ) - ((pts.get j).x : ℚ) ≠ 0 := by
      intro h0
      exact hjm (by exact_mod_cast sub_eq_zero.1 h0)
    exact div_self this
  · intro i _ him
    unfold lagrangeTerm
    have hm : m ∈ Finset.univ.erase i :=
      Finset.mem_erase.2 ⟨Ne.symm him, Finset.mem_univ m⟩
    rw [Finset.prod_eq_zero hm (by rw [sub_self, zero_div]), mul_zero]
  · intro h
    exact absurd (Finset.mem_univ m) h

/-- If `lagrangeEvalAt` succeeds anywhere, then evaluated at a node's own
x-coordinate it returns exactly that node's y, as the integer rational
`⟨y, 1⟩`. -/
theorem lagrangeEvalAt_node {pts : List Pt} {x0 : Int} {r0 : Rational}
    (h : lagrangeEvalAt pts x0 = .ok r0) (m : Fin pts.length) :
    lagrangeEvalAt pts (pts.get m).x = .ok ⟨(pts.get m).y, 1⟩ := by
  have hdist := lagrangeEvalAt_ok_distinct h
  obtain ⟨r, hr, hrnorm, hrval⟩ := lagrangeEvalAt_ok pts (pts.get m).x hdist
  rw [lagrangeValue_node pts hdist m] at hrval
  rw [hr, Rational.normal_eq_int hrnorm hrval]

theorem pairwise_x_iff (pts : List Pt) :
    pts.Pairwise (fun p q => p.x ≠ q.x) ↔
      ∀ i j : Fin pts.length, i ≠ j → (pts.get i).x ≠ (pts.get j).x := by
  rw [List.pairwise_iff_get]
  constructor
  · intro h i j hij
    rcases lt_or_gt_of_ne hij with hlt | hgt
    · exact h i j hlt
    · exact (h j i hgt).symm
  · intro h i j hlt
    exact h i j (Fin.ne_of_lt hlt)

/-- The exact Lagrange sum is the evaluation at x0 of Mathlib's Lagrange
interpolation polynomial (the unique polynomial of degree < k through the
points). -/
theorem lagrangeValue_eq_interpolate (pts : List Pt) (x0 : Int) :
    lagrangeValue pts x0 =
      Polynomial.eval (x0 : ℚ)
        (Lagrange.interpolate Finset.univ
          (fun i : Fin pts.length => ((pts.get i).x : ℚ))
          (fun i => ((pts.get i).y : ℚ))) := by
  rw [Lagrange.interpolate_apply, Polynomial.eval_finset_sum]
  unfold lagrangeValue lagrangeTerm
  apply Finset.sum_congr rfl
  intro i _
  rw [Polynomial.eval_mul, Polynomial.eval_C]
  congr 1
  rw [Lagrange.basis, Polynomial.eval_prod]
  apply Finset.prod_congr rfl
  intro j _
  rw [Lagrange.basisDivisor, Polynomial.eval_mul, Polynomial.eval_C,
    Polynomial.eval_sub, Polynomial.eval_X, Polynomial.eval_C, div_eq_inv_mul]

/-- C3.  For every list of points with pairwise-distinct integer
x-coordinates and every integer x0, `lagrangeEvalAt` succeeds and returns
(in canonical form) the exact rational value
`Σᵢ yᵢ * ∏_{j ≠ i} (x0 - xⱼ)/(xᵢ - xⱼ)`, which is the value at x0 of the
unique interpolating polynomial of degree < k (Mathlib's
`Lagrange.interpolate`), computed in exact rational arithmetic. -/
theorem lagrangeEvalAt_exact (pts : List Pt) (x0 : Int)
    (hdist : pts.Pairwise (fun p q => p.x ≠ q.x)) :
    ∃ r, lagrangeEvalAt pts x0 = .ok r ∧ r.Normal ∧
      r.toRat = lagrangeValue pts x0 ∧
      r.toRat = Polynomial.eval (x0 : ℚ)
        (Lagrange.interpolate Finset.univ
          (fun i : Fin pts.length => ((pts.get i).x : ℚ))
          (fun i => ((pts.get i).y : ℚ))) := by
  obtain ⟨r, hr, hnorm, hval⟩ :=
    lagrangeEvalAt_ok pts x0 ((pairwise_x_iff pts).1 hdist)
  exact ⟨r, hr, hnorm, hval, by rw [hval, lagrangeValue_eq_interpolate]⟩

/-- Witness for C3 at a concrete input: the line through (1,2) and (2,3),
evaluated at 0. -/
theorem lagrangeEvalAt_exact_witness :
    ∃ r, lagrangeEvalAt [⟨1, 2⟩, ⟨2, 3⟩] 0 = .ok r ∧ r.Normal ∧
      r.toRat = lagrangeValue [⟨1, 2⟩, ⟨2, 3⟩] 0 ∧
      r.toRat = Polynomial.eval ((0 : Int) : ℚ)
        (Lagrange.interpolate Finset.univ
          (fun i : Fin ([⟨1, 2⟩, ⟨2, 3⟩] : List Pt).length =>
            ((([⟨1, 2⟩, ⟨2, 3⟩] : List Pt).get i).x : ℚ))
          (fun i => ((([⟨1, 2⟩, ⟨2, 3⟩] : List Pt).get i).y : ℚ))) :=
  lagrangeEvalAt_exact [⟨1, 2⟩, ⟨2, 3⟩] 0 (by decide)

/-- C8.  `Rational.div` fails (with `DivisionByZero`) exactly when the
divisor's numerator is zero; and `lagrangeEvalAt` on two points sharing an
x-coordinate surfaces `DivisionByZero`. -/
theorem division_by_zero_spec :
    (∀ a b : Rational, a.d ≠ 0 → b.d ≠ 0 →
      ((a.div b = .error .divisionByZero) ↔ b.n = 0) ∧
      (b.n ≠ 0 → ∃ r, a.div b = .ok r)) ∧
    (∀ (pts : List Pt) (x0 : Int),
      (∃ i j : Fin pts.length, i ≠ j ∧ (pts.get i).x = (pts.get j).x) →
      lagrangeEvalAt pts x0 = .error .divisionByZero) := by
  constructor
  · intro a b ha hb
    constructor
    · constructor
      · intro herr
        by_contra hbn
        obtain ⟨r, hr, _, _⟩ := Rational.div_ok a b ha hb hbn
        rw [hr] at herr
        exact absurd herr (by simp)
      · exact Rational.div_zero_num a b
    · intro hbn
      obtain ⟨r, hr, _, _⟩ := Rational.div_ok a b ha hb hbn
      exact ⟨r, hr⟩
  · exact lagrangeEvalAt_dup

/-- Witness for C8 at concrete inputs: dividing 1/2 by the zero rational,
and interpolating two points with equal x-coordinate 1. -/
theorem division_by_zero_spec_witness :
    (((Rational.mk 1 2).div ⟨0, 1⟩ = .error .divisionByZero) ↔ (Rational.mk 0 1).n = 0) ∧
    ((Rational.mk 0 1).n ≠ 0 → ∃ r, (Rational.mk 1 2).div ⟨0, 1⟩ = .ok r) ∧
    lagrangeEvalAt [⟨1, 5⟩, ⟨1, 7⟩] 0 = .error .divisionByZero :=
  ⟨(division_by_zero_spec.1 ⟨1, 2⟩ ⟨0, 1⟩ (by decide) (by decide)).1,
   (division_by_zero_spec.1 ⟨1, 2⟩ ⟨0, 1⟩ (by decide) (by decide)).2,
   division_by_zero_spec.2 [⟨1, 5⟩, ⟨1, 7⟩] 0 ⟨⟨0, by norm_num⟩, ⟨1, by norm_num⟩, by decide, rfl⟩⟩

/-! ## Subset combinator (`combinations`, src/code.js:65-77) -/

/-- The "next combination" step of the generator (src/code.js:71-75): find
the rightmost position `i` whose index is not yet at its maximum
`i + n - k`, increment it, and reset every later position `j` to
`idx[j-1] + 1` (a minimal increasing run).  Returns `none` when every
position is at its maximum (the loop's `break`).  `pos` is the position of
the current list head inside the full index array; the generator calls
this with `pos = 0`. -/
def nextCombo (n k : Nat) : Nat → List Nat → Option (List Nat)
  | _, [] => none
  | pos, a :: rest =>
    match nextCombo n k (pos + 1) rest with
    | some rest' => some (a :: rest')
    | none =>
      if a = pos + n - k then none
      else some ((a + 1) :: (List.range rest.length).map (fun t => a + 2 + t))

/-- The generator loop (src/code.js:69-76): yield the current index tuple,
advance it, stop when no successor exists.  The `fuel` argument bounds the
number of yields so the loop is a total function; the caller passes
`(n+1)^k`, which the enumeration theorem below proves sufficient. -/
def comboGo (n k : Nat) : Nat → List Nat → List (List Nat)
  | 0, _ => []
  | fuel + 1, idx =>
    idx :: (match nextCombo n k 0 idx with
            | none => []
            | some idx' => comboGo n k fuel idx')

/-- `combinations(arr, k)` (src/code.js:65-77): yield `[]` once for
`k = 0`, otherwise run the successor loop from `[0, 1, …, k-1]`; each
yielded index tuple is mapped through `arr` (src/code.js:70). -/
def combinations {α : Type} [Inhabited α] (arr : List α) (k : Nat) : List (List α) :=
  if k = 0 then [[]]
  else (comboGo arr.length k ((arr.length + 1) ^ k) (List.range k)).map
    (fun idx => idx.map (fun i => arr.getD i default))

/-- Spec-side: all strictly increasing `k`-element lists over `[lo, n)`,
in lexicographic order. -/
def lexCombos (n : Nat) : Nat → Nat → List (List Nat)
  | _, 0 => [[]]
  | lo, k + 1 =>
    (List.range' lo (n - lo)).flatMap
      (fun a => (lexCombos n (a + 1) k).map (a :: ·))

/-- Spec-side: a well-formed index tuple suffix — the right length,
strictly increasing, in range. -/
def ComboSuffix (n k pos : Nat) (l : List Nat) : Prop :=
  pos + l.length = k ∧ l.Pairwise (· < ·) ∧ ∀ x ∈ l, x < n

/-- A well-formed full index tuple. -/
def ComboValid (n k : Nat) (c : List Nat) : Prop :=
  c.length = k ∧ c.Pairwise (· < ·) ∧ ∀ x ∈ c, x < n

theorem lexCombos_mem (n : Nat) :
    ∀ (k lo : Nat) (c : List Nat),
      c ∈ lexCombos n lo k ↔
        c.length = k ∧ c.Pairwise (· < ·) ∧ ∀ x ∈ c, lo ≤ x ∧ x < n := by
  intro k
  induction k with
  | zero =>
    intro lo c
    simp only [lexCombos, List.mem_singleton]
    constructor
    · rintro rfl; simp
    · rintro ⟨hlen, -, -⟩
      exact List.eq_nil_of_length_eq_zero hlen
  | succ k ih =>
    intro lo c
    simp only [lexCombos, List.mem_flatMap, List.mem_map, List.mem_range']
    constructor
    · rintro ⟨a, ⟨i, hi, rfl⟩, c', hc', rfl⟩
      obtain ⟨hlen, hpw, hrange⟩ := (ih _ c').1 hc'
      refine ⟨by simp [hlen], ?_, ?_⟩
      · rw [List.pairwise_cons]
        exact ⟨fun x hx => by have := (hrange x hx).1; omega, hpw⟩
      · intro x hx
        rcases List.mem_cons.1 hx with rfl | hx
        · omega
        · have := hrange x hx; omega
    · rintro ⟨hlen, hpw, hrange⟩
      match c with
      | [] => simp at hlen
      | a :: c' =>
        rw [List.pairwise_cons] at hpw
        have ha := hrange a (List.mem_cons_self _ _)
        refine ⟨a, ⟨a - lo, by omega, by omega⟩, c', ?_, rfl⟩
        refine (ih _ c').2 ⟨by simpa using hlen, hpw.2, ?_⟩
        intro x hx
        have h1 := hpw.1 x hx
        have h2 := hrange x (List.mem_cons_of_mem _ hx)
        omega

theorem lexCombos_pairwise (n : Nat) :
    ∀ (k lo : Nat), (lexCombos n lo k).Pairwise (List.Lex (· < ·)) := by
  intro k
  induction k with
  | zero => intro lo; simp [lexCombos]
  | succ k ih =>
    intro lo
    unfold lexCombos
    rw [List.flatMap, List.pairwise_join]
    constructor
    · intro l hl
      rw [List.mem_map] at hl
      obtain ⟨a, _, rfl⟩ := hl
      rw [List.pairwise_map]
      exact (ih (a + 1)).imp (fun h => List.Lex.cons h)
    · rw [List.pairwise_map]
      have hr : (List.range' lo (n - lo)).Pairwise (· < ·) :=
        List.pairwise_lt_range' _ _ _ (by norm_num)
      refine hr.imp_of_mem ?_
      intro a b _ _ hab
      intro x hx y hy
      rw [List.mem_map] at hx hy
      obtain ⟨c1, -, rfl⟩ := hx
      obtain ⟨c2, -, rfl⟩ := hy
      exact List.Lex.rel hab

theorem lexCombos_length (n : Nat) :
    ∀ (k lo : Nat), (lexCombos n lo k).length = (n - lo).choose k := by
  intro k
  induction k with
  | zero => intro lo; simp [lexCombos]
  | succ k ih =>
    have haux : ∀ (m lo : Nat), n - lo = m →
        ((List.range' lo m).map
          (fun a => (lexCombos n (a + 1) k).length)).sum = m.choose (k + 1) := by
      intro m
      induction m with
      | zero => intro lo _; simp
      | succ m ihm =>
        intro lo hlo
        rw [List.range'_succ]
        simp only [List.map_cons, List.sum_cons]
        rw [ihm (lo + 1) (by omega), ih (lo + 1)]
        have h1 : n - (lo + 1) = m := by omega
        rw [h1]
        rw [Nat.choose_succ_succ m k, Nat.add_comm]
    intro lo
    unfold lexCombos
    rw [List.length_flatMap]
    have : ∀ a, (List.length ∘ fun a => (lexCombos n (a + 1) k).map (a :: ·)) a =
        (lexCombos n (a + 1) k).length := by
      intro a; simp
    rw [List.map_congr_left (fun a _ => this a)]
    exact haux (n - lo) lo rfl

theorem pairwise_head_len_lt {n a : Nat} {rest : List Nat}
    (hpw : (a :: rest).Pairwise (· < ·)) (hlt : ∀ x ∈ a :: rest, x < n) :
    a + rest.length < n := by
  induction rest generalizing a with
  | nil => simpa using hlt a (List.mem_cons_self _ _)
  | cons b rest ih =>
    rw [List.pairwise_cons] at hpw
    have hab : a < b := hpw.1 b (List.mem_cons_self _ _)
    have hb := ih hpw.2 (fun x hx => hlt x (List.mem_cons_of_mem _ hx))
    simp only [List.length_cons]
    omega

/-- Spec-side: the minimal strictly increasing run `[lo, lo+1, …]`. -/
def minRun (lo len : Nat) : List Nat := (List.range len).map (fun t => lo + t)

theorem minRun_succ (lo len : Nat) :
    minRun lo (len + 1) = lo :: minRun (lo + 1) len := by
  unfold minRun
  rw [List.range_succ_eq_map, List.map_cons, List.map_map]
  simp only [Nat.add_zero]
  refine congrArg (lo :: ·) ?_
  apply List.map_congr_left
  intro t _
  simp only [Function.comp_apply, Nat.succ_eq_add_one]
  omega

theorem minRun_length (lo len : Nat) : (minRun lo len).length = len := by
  simp [minRun]

theorem minRun_pairwise (lo len : Nat) : (minRun lo len).Pairwise (· < ·) := by
  unfold minRun
  rw [List.pairwise_map]
  exact (List.pairwise_lt_range len).imp (fun h => by omega)

theorem minRun_mem {lo len x : Nat} (hx : x ∈ minRun lo len) :
    lo ≤ x ∧ x < lo + len := by
  unfold minRun at hx
  rw [List.mem_map] at hx
  obtain ⟨t, ht, rfl⟩ := hx
  rw [List.mem_range] at ht
  omega

theorem minRun_le_lex : ∀ (len lo : Nat) (c : List Nat), c.length = len →
    c.Pairwise (· < ·) → (∀ x ∈ c, lo ≤ x) →
    minRun lo len = c ∨ List.Lex (· < ·) (minRun lo len) c := by
  intro len
  induction len with
  | zero =>
    intro lo c hlen _ _
    left
    rw [List.length_eq_zero.1 hlen]
    rfl
  | succ len ih =>
    intro lo c hlen hpw hge
    match c with
    | b :: crest =>
      have hlob : lo ≤ b := hge b (List.mem_cons_self _ _)
      rw [minRun_succ]
      rcases Nat.lt_or_ge lo b with hlt | hge2
      · right; exact List.Lex.rel hlt
      · have hb : lo = b := by omega
        subst hb
        rw [List.pairwise_cons] at hpw
        rcases ih (lo + 1) crest (by simpa using hlen) hpw.2
            (fun x hx => hpw.1 x hx) with heq | hlex
        · left; rw [heq]
        · right; exact List.Lex.cons hlex

theorem nextCombo_some_spec (n k : Nat) :
    ∀ (l : List Nat) (pos : Nat) (l' : List Nat),
      nextCombo n k pos l = some l' → ComboSuffix n k pos l →
      ComboSuffix n k pos l' ∧ List.Lex (· < ·) l l' ∧ ∀ x ∈ l', l.headD 0 ≤ x := by
  intro l
  induction l with
  | nil => intro pos l' h; simp [nextCombo] at h
  | cons a rest ih =>
    intro pos l' h hsuf
    obtain ⟨hlen, hpw0, hlt⟩ := hsuf
    have hbound := pairwise_head_len_lt hpw0 hlt
    rw [List.pairwise_cons] at hpw0
    simp only [List.length_cons] at hlen
    rw [nextCombo] at h
    cases hrec : nextCombo n k (pos + 1) rest with
    | some rest' =>
      rw [hrec] at h
      injection h with h
      subst h
      have hsufr : ComboSuffix n k (pos + 1) rest :=
        ⟨by omega, hpw0.2, fun x hx => hlt x (List.mem_cons_of_mem _ hx)⟩
      obtain ⟨⟨hlen', hpw', hlt'⟩, hlex', hhead'⟩ := ih (pos + 1) rest' hrec hsufr
      match rest, hpw0, hlex', hhead', hrec with
      | b :: rest0, hpw0, hlex', hhead', hrec =>
        have hab : a < b := hpw0.1 b (List.mem_cons_self _ _)
        have hax : ∀ x ∈ rest', a < x := by
          intro x hx
          have := hhead' x hx
          simp only [List.headD_cons] at this
          omega
        refine ⟨⟨by simp only [List.length_cons]; omega, ?_, ?_⟩,
          List.Lex.cons hlex', ?_⟩
        · rw [List.pairwise_cons]
          exact ⟨hax, hpw'⟩
        · intro x hx
          rcases List.mem_cons.1 hx with rfl | hx
          · exact hlt x (List.mem_cons_self _ _)
          · exact hlt' x hx
        · intro x hx
          simp only [List.headD_cons]
          rcases List.mem_cons.1 hx with rfl | hx
          · omega
          · exact le_of_lt (hax x hx)
    | none =>
      rw [hrec] at h
      by_cases hmax : a = pos + n - k
      · rw [if_pos hmax] at h
        exact absurd h (by simp)
      · rw [if_neg hmax] at h
        injection h with h
        subst h
        have hamax : a < pos + n - k := by omega
        refine ⟨⟨?_, ?_, ?_⟩, List.Lex.rel (by omega), ?_⟩
        · show pos + ((a + 1) :: minRun (a + 2) rest.length).length = k
          simp only [List.length_cons, minRun_length]
          omega
        · show ((a + 1) :: minRun (a + 2) rest.length).Pairwise (· < ·)
          rw [List.pairwise_cons]
          refine ⟨fun x hx => ?_, minRun_pairwise _ _⟩
          have := minRun_mem hx
          omega
        · show ∀ x ∈ (a + 1) :: minRun (a + 2) rest.length, x < n
          intro x hx
          rcases List.mem_cons.1 hx with rfl | hx
          · omega
          · have := minRun_mem hx
            omega
        · show ∀ x ∈ (a + 1) :: minRun (a + 2) rest.length, (a :: rest).headD 0 ≤ x
          intro x hx
          simp only [List.headD_cons]
          rcases List.mem_cons.1 hx with rfl | hx
          · omega
          · have := minRun_mem hx
            omega

theorem nextCombo_none_spec (n k : Nat) :
    ∀ (l : List Nat) (pos : Nat),
      nextCombo n k pos l = none → ComboSuffix n k pos l →
      ∀ c, ComboSuffix n k pos c → ¬ List.Lex (· < ·) l c := by
  intro l
  induction l with
  | nil =>
    intro pos _ hsuf c hc hlex
    obtain ⟨hlen, -, -⟩ := hsuf
    obtain ⟨hlenc, -, -⟩ := hc
    have hc0 : c = [] := List.length_eq_zero.1
      (by simp only [List.length_nil] at hlen; omega)
    subst hc0
    cases hlex
  | cons a rest ih =>
    intro pos h hsuf c hc hlex
    obtain ⟨hlen, hpw0, hlt⟩ := hsuf
    simp only [List.length_cons] at hlen
    rw [nextCombo] at h
    cases hrec : nextCombo n k (pos + 1) rest with
    | some rest' =>
      rw [hrec] at h
      exact absurd h (by simp)
    | none =>
      rw [hrec] at h
      by_cases hmax : a = pos + n - k
      · obtain ⟨hlenc, hpwc0, hltc⟩ := hc
        cases hlex with
        | cons hl =>
          rename_i crest
          rw [List.pairwise_cons] at hpw0 hpwc0
          exact ih (pos + 1) hrec
            ⟨by omega, hpw0.2, fun x hx => hlt x (List.mem_cons_of_mem _ hx)⟩
            crest
            ⟨by simp only [List.length_cons] at hlenc; omega, hpwc0.2,
             fun x hx => hltc x (List.mem_cons_of_mem _ hx)⟩
            hl
        | rel hab =>
          rename_i b crest
          have hboundc := pairwise_head_len_lt hpwc0 hltc
          simp only [List.length_cons] at hlenc
          omega
      · rw [if_neg hmax] at h
        exact absurd h (by simp)

theorem nextCombo_tight (n k : Nat) :
    ∀ (l : List Nat) (pos : Nat) (l' : List Nat),
      nextCombo n k pos l = some l' → ComboSuffix n k pos l →
      ∀ c, ComboSuffix n k pos c → List.Lex (· < ·) l c →
      l' = c ∨ List.Lex (· < ·) l' c := by
  intro l
  induction l with
  | nil => intro pos l' h; simp [nextCombo] at h
  | cons a rest ih =>
    intro pos l' h hsuf c hc hlex
    obtain ⟨hlen, hpw0, hlt⟩ := hsuf
    have hbound := pairwise_head_len_lt hpw0 hlt
    simp only [List.length_cons] at hlen
    rw [nextCombo] at h
    obtain ⟨hlenc, hpwc0, hltc⟩ := hc
    cases hlex with
    | cons hl =>
      rename_i crest
      simp only [List.length_cons] at hlenc
      rw [List.pairwise_cons] at hpwc0
      have hsufr : ComboSuffix n k (pos + 1) rest :=
        ⟨by omega, (List.pairwise_cons.1 hpw0).2,
         fun x hx => hlt x (List.mem_cons_of_mem _ hx)⟩
      have hsufc : ComboSuffix n k (pos + 1) crest :=
        ⟨by omega, hpwc0.2, fun x hx => hltc x (List.mem_cons_of_mem _ hx)⟩
      cases hrec : nextCombo n k (pos + 1) rest with
      | some rest' =>
        rw [hrec] at h
        injection h with h
        subst h
        rcases ih (pos + 1) rest' hrec hsufr crest hsufc hl with heq | hlex'
        · left; rw [heq]
        · right; exact List.Lex.cons hlex'
      | none =>
        exact absurd hl (nextCombo_none_spec n k rest (pos + 1) hrec hsufr crest hsufc)
    | rel hab =>
      rename_i b crest
      simp only [List.length_cons] at hlenc
      rw [List.pairwise_cons] at hpwc0
      cases hrec : nextCombo n k (pos + 1) rest with
      | some rest' =>
        rw [hrec] at h
        injection h with h
        subst h
        right
        exact List.Lex.rel hab
      | none =>
        rw [hrec] at h
        by_cases hmax : a = pos + n - k
        · rw [if_pos hmax] at h
          exact absurd h (by simp)
        · rw [if_neg hmax] at h
          injection h with h
          subst h
          rcases Nat.lt_or_ge (a + 1) b with hlt1 | hge1
          · right; exact List.Lex.rel hlt1
          · have hb : b = a + 1 := by omega
            subst hb
            have hmr := minRun_le_lex rest.length (a + 2) crest (by omega) hpwc0.2
              (fun x hx => by have := hpwc0.1 x hx; omega)
            rcases hmr with heq | hlex'
            · left
              show (a + 1) :: minRun (a + 2) rest.length = (a + 1) :: crest
              rw [heq]
            · right
              show List.Lex (· < ·) ((a + 1) :: minRun (a + 2) rest.length) ((a + 1) :: crest)
              exact List.Lex.cons hlex'

/-- Spec-side Bool predicate: `c` is at or after `l` in lex order. -/
def lexFrom (l c : List Nat) : Bool := decide (l = c ∨ List.Lex (· < ·) l c)

/-- Spec-side Bool predicate: `c` is strictly after `l` in lex order. -/
def lexAfter (l c : List Nat) : Bool := decide (List.Lex (· < ·) l c)

theorem comboSuffix_zero_iff (n k : Nat) (l : List Nat) :
    ComboSuffix n k 0 l ↔ ComboValid n k l := by
  unfold ComboSuffix ComboValid
  constructor
  · rintro ⟨h1, h2, h3⟩; exact ⟨by omega, h2, h3⟩
  · rintro ⟨h1, h2, h3⟩; exact ⟨by omega, h2, h3⟩

theorem lexCombos_mem_valid {n k : Nat} {c : List Nat} :
    c ∈ lexCombos n 0 k ↔ ComboValid n k c := by
  rw [lexCombos_mem n k 0 c]
  unfold ComboValid
  constructor
  · rintro ⟨h1, h2, h3⟩; exact ⟨h1, h2, fun x hx => (h3 x hx).2⟩
  · rintro ⟨h1, h2, h3⟩; exact ⟨h1, h2, fun x hx => ⟨Nat.zero_le x, h3 x hx⟩⟩

theorem filter_ge_sorted :
    ∀ {L : List (List Nat)}, L.Pairwise (List.Lex (· < ·)) →
    ∀ {l : List Nat}, l ∈ L →
    L.filter (lexFrom l) = l :: L.filter (lexAfter l) := by
  intro L
  induction L with
  | nil => intro _ l hl; simp at hl
  | cons x L ih =>
    intro hpw l hl
    rw [List.pairwise_cons] at hpw
    rcases List.mem_cons.1 hl with rfl | hl
    · rw [List.filter_cons, List.filter_cons]
      have hx : lexFrom l l = true := by simp [lexFrom]
      have hx2 : lexAfter l l = false := by
        simp only [lexAfter, decide_eq_false_iff_not]
        exact irrefl_of (List.Lex (· < ·)) l
      rw [if_pos hx, if_neg (by simp [hx2])]
      congr 1
      apply List.filter_congr
      intro c hc
      have hlex := hpw.1 c hc
      simp [lexFrom, lexAfter, hlex]
    · have hxl : List.Lex (· < ·) x l := hpw.1 l hl
      rw [List.filter_cons, List.filter_cons]
      have h1 : lexFrom l x = false := by
        simp only [lexFrom, decide_eq_false_iff_not]
        rintro (rfl | hlx)
        · exact asymm_of (List.Lex (· < ·)) hxl hxl
        · exact asymm_of (List.Lex (· < ·)) hxl hlx
      have h2 : lexAfter l x = false := by
        simp only [lexAfter, decide_eq_false_iff_not]
        intro hlx
        exact asymm_of (List.Lex (· < ·)) hxl hlx
      rw [if_neg (by simp [h1]), if_neg (by simp [h2])]
      exact ih hpw.2 hl

theorem comboGo_sim (n k : Nat) :
    ∀ (fuel : Nat) (l : List Nat), ComboValid n k l →
      ((lexCombos n 0 k).filter (lexFrom l)).length ≤ fuel →
      comboGo n k fuel l = (lexCombos n 0 k).filter (lexFrom l) := by
  intro fuel
  induction fuel with
  | zero =>
    intro l hvalid hle
    exfalso
    have hmem : l ∈ lexCombos n 0 k := lexCombos_mem_valid.2 hvalid
    have hmemf : l ∈ (lexCombos n 0 k).filter (lexFrom l) :=
      List.mem_filter.2 ⟨hmem, by simp [lexFrom]⟩
    have := List.length_pos.2 (List.ne_nil_of_mem hmemf)
    omega
  | succ fuel ih =>
    intro l hvalid hle
    have hmem : l ∈ lexCombos n 0 k := lexCombos_mem_valid.2 hvalid
    have hfil := filter_ge_sorted (lexCombos_pairwise n k 0) hmem
    rw [comboGo, hfil]
    congr 1
    cases hrec : nextCombo n k 0 l with
    | none =>
      have hnone := nextCombo_none_spec n k l 0 hrec ((comboSuffix_zero_iff n k l).2 hvalid)
      symm
      rw [List.filter_eq_nil_iff]
      intro c hc
      have hcvalid := lexCombos_mem_valid.1 hc
      simp only [lexAfter, decide_eq_true_eq]
      exact hnone c ((comboSuffix_zero_iff n k c).2 hcvalid)
    | some l' =>
      obtain ⟨hsuf', hlex', -⟩ :=
        nextCombo_some_spec n k l 0 l' hrec ((comboSuffix_zero_iff n k l).2 hvalid)
      have hvalid' : ComboValid n k l' := (comboSuffix_zero_iff n k l').1 hsuf'
      have hcongr : (lexCombos n 0 k).filter (lexAfter l) =
          (lexCombos n 0 k).filter (lexFrom l') := by
        apply List.filter_congr
        intro c hc
        have hcvalid := lexCombos_mem_valid.1 hc
        simp only [lexAfter, lexFrom, decide_eq_decide]
        constructor
        · intro hlc
          exact nextCombo_tight n k l 0 l' hrec ((comboSuffix_zero_iff n k l).2 hvalid)
            c ((comboSuffix_zero_iff n k c).2 hcvalid) hlc
        · rintro (rfl | hlc)
          · exact hlex'
          · exact trans_of (List.Lex (· < ·)) hlex' hlc
      rw [hcongr]
      apply ih l' hvalid'
      have hlen2 : ((lexCombos n 0 k).filter (lexFrom l)).length =
          ((lexCombos n 0 k).filter (lexFrom l')).length + 1 := by
        rw [hfil, hcongr, List.length_cons]
      omega

theorem choose_le_succ_pow (n k : Nat) : n.choose k ≤ (n + 1) ^ k := by
  induction k with
  | zero => simp
  | succ k ih =>
    have h1 : n.choose (k + 1) ≤ n.choose (k + 1) * (k + 1) :=
      Nat.le_mul_of_pos_right _ (by omega)
    rw [Nat.choose_succ_right_eq] at h1
    calc n.choose (k + 1) ≤ n.choose k * (n - k) := h1
    _ ≤ n.choose k * (n + 1) := Nat.mul_le_mul_left _ (by omega)
    _ ≤ (n + 1) ^ k * (n + 1) := Nat.mul_le_mul_right _ ih
    _ = (n + 1) ^ (k + 1) := (pow_succ _ _).symm

theorem minRun_zero_eq_range (len : Nat) : minRun 0 len = List.range len := by
  unfold minRun
  have : ∀ t ∈ List.range len, 0 + t = t := fun t _ => by omega
  rw [List.map_congr_left this]
  exact List.map_id _

theorem comboGo_eq_lexCombos (n k : Nat) (hk : k ≤ n) :
    comboGo n k ((n + 1) ^ k) (List.range k) = lexCombos n 0 k := by
  have hvalid : ComboValid n k (List.range k) :=
    ⟨List.length_range k, List.pairwise_lt_range k,
     fun x hx => lt_of_lt_of_le (List.mem_range.1 hx) hk⟩
  have hstart : (lexCombos n 0 k).filter (lexFrom (List.range k)) = lexCombos n 0 k := by
    rw [List.filter_eq_self]
    intro c hc
    obtain ⟨hlen, hpw, -⟩ := lexCombos_mem_valid.1 hc
    simp only [lexFrom, decide_eq_true_eq]
    have := minRun_le_lex k 0 c hlen hpw (fun x _ => Nat.zero_le x)
    rw [minRun_zero_eq_range] at this
    exact this
  rw [comboGo_sim n k ((n + 1) ^ k) (List.range k) hvalid ?_, hstart]
  rw [hstart, lexCombos_length]
  simpa using choose_le_succ_pow n k

/-- C7.  For `0 ≤ k ≤ n = arr.length`, the generator yields exactly the
`C(n,k)` index subsets of size `k`, each strictly increasing over `[0,n)`,
every such subset exactly once, in lexicographic order of the index tuples
(each tuple mapped through `arr`); `k = 0` yields exactly the empty
subset. -/
theorem combinations_spec {α : Type} [Inhabited α] (arr : List α) (k : Nat)
    (hk : k ≤ arr.length) :
    combinations arr k =
      (lexCombos arr.length 0 k).map (fun c => c.map (fun i => arr.getD i default)) ∧
    (combinations arr k).length = arr.length.choose k ∧
    (lexCombos arr.length 0 k).Pairwise (List.Lex (· < ·)) ∧
    (∀ c, c ∈ lexCombos arr.length 0 k ↔
      c.length = k ∧ c.Pairwise (· < ·) ∧ ∀ x ∈ c, x < arr.length) ∧
    (k = 0 → combinations arr k = [[]]) := by
  have heq : combinations arr k =
      (lexCombos arr.length 0 k).map (fun c => c.map (fun i => arr.getD i default)) := by
    unfold combinations
    by_cases h0 : k = 0
    · subst h0
      simp [lexCombos]
    · rw [if_neg h0, comboGo_eq_lexCombos arr.length k hk]
  refine ⟨heq, ?_, lexCombos_pairwise _ _ _, ?_, ?_⟩
  · rw [heq, List.length_map, lexCombos_length]
    simp
  · intro c
    exact lexCombos_mem_valid.trans Iff.rfl
  · intro h0
    subst h0
    unfold combinations
    simp

/-- Witness for C7 at a concrete input: the 2-element subsets of a
3-element list. -/
theorem combinations_spec_witness :
    combinations [10, 20, 30] 2 =
      (lexCombos ([10, 20, 30] : List Nat).length 0 2).map
        (fun c => c.map (fun i => ([10, 20, 30] : List Nat).getD i default)) ∧
    (combinations [10, 20, 30] 2).length = ([10, 20, 30] : List Nat).length.choose 2 ∧
    (lexCombos ([10, 20, 30] : List Nat).length 0 2).Pairwise (List.Lex (· < ·)) ∧
    (∀ c, c ∈ lexCombos ([10, 20, 30] : List Nat).length 0 2 ↔
      c.length = 2 ∧ c.Pairwise (· < ·) ∧ ∀ x ∈ c, x < ([10, 20, 30] : List Nat).length) ∧
    (2 = 0 → combinations [10, 20, 30] 2 = [[]]) :=
  combinations_spec [10, 20, 30] 2 (by decide)

/-! ## Consistency solver (`solveShamirLike`, src/code.js:79-131) -/

/-- One raw share record of the input object: the declared index (the JSON
property name, numeric), its base, and its textual value. -/
structure RawShare where
  idx : Int
  base : Int
  value : List Char
deriving DecidableEq, Repr

/-- One parsed share `{idx, x, y}` (src/code.js:91): `x = BigInt(idx)`. -/
structure Share where
  idx : Int
  x : Int
  y : Int
deriving DecidableEq, Repr

/-- The candidate record stored in `best` (src/code.js:114). -/
structure Cand where
  agreeCount : Nat
  secretF0 : Int
  subset : List Nat
  agrees : List Bool
deriving DecidableEq, Repr

/-- `best.agreeCount` with the initial sentinel `-1` (src/code.js:95). -/
def bestCount : Option Cand → Int
  | none => -1
  | some b => (b.agreeCount : Int)

/-- The result object (src/code.js:125-130); `secretF0` is the exact
integer the source then stringifies. -/
structure SolveResult where
  k : Nat
  degree : Int
  secretF0 : Int
  consistentShareIndices : List Int
  inconsistentShareIndices : List Int
deriving DecidableEq, Repr

/-- `shares[i]` in the source: an out-of-range access yields `undefined`
and the property read that follows throws a `TypeError`. -/
def getShare (shares : List Share) (i : Nat) : Except JsError Share :=
  match shares.get? i with
  | none => .error .runtimeTypeError
  | some s => .ok s

/-- The agreement-mask loop (src/code.js:103-112): share `i ∈ [0, n)`
agrees iff the subset's interpolation at its own x-coordinate is an exact
integer equal to its y. -/
def agreeFlags (shares : List Share) (subset : List Pt) (n : Nat) :
    Except JsError (List Bool) :=
  (List.range n).mapM (fun i => do
    let s ← getShare shares i
    let expected ← lagrangeEvalAt subset s.x
    pure (expected.d == 1 && expected.n == s.y))

/-- One iteration of the subset search (src/code.js:99-112): build the
subset's points, interpolate at 0, discard (`continue`, modelled `none`)
unless f0 is an exact integer, otherwise assemble the candidate that the
source would store into `best`: the agreement count, `f0.n`, the index
tuple and the mask. -/
def evalSubset (shares : List Share) (n : Nat) (idxs : List Nat) :
    Except JsError (Option Cand) := do
  let subset ← idxs.mapM (fun i => do
    let s ← getShare shares i
    pure (⟨s.x, s.y⟩ : Pt))
  let f0 ← lagrangeEvalAt subset 0
  if f0.d = 1 then
    let flags ← agreeFlags shares subset n
    pure (some ⟨flags.count true, f0.n, idxs, flags⟩)
  else
    pure none

/-- The search over candidate subsets (src/code.js:98-117): the best is
replaced only on strictly greater agreement count, and the loop `break`s
as soon as a candidate agrees with all `n` shares. -/
def searchLoop (shares : List Share) (n : Nat) :
    List (List Nat) → Option Cand → Except JsError (Option Cand)
  | [], best => .ok best
  | idxs :: rest, best => do
    match ← evalSubset shares n idxs with
    | none => searchLoop shares n rest best
    | some c =>
      if (c.agreeCount : Int) > bestCount best then
        if c.agreeCount = n then .ok (some c)
        else searchLoop shares n rest (some c)
      else searchLoop shares n rest best

/-- The classification loop (src/code.js:119-123): split the declared
indices by the best candidate's agreement mask (`best.agrees[i]` reads
`undefined`, i.e. `false`, out of range). -/
def classify (shares : List Share) (n : Nat) (agrees : List Bool) :
    Except JsError (List Int × List Int) :=
  (List.range n).foldlM (fun acc i => do
    let s ← getShare shares i
    if agrees.getD i false then pure (acc.1 ++ [s.idx], acc.2)
    else pure (acc.1, acc.2 ++ [s.idx])) ([], [])

/-- `solveShamirLike(input)` (src/code.js:79-131).  The input object is
modelled as the `keys` pair `(n, k)` plus the list of share records in
property order.  Each share is parsed with `parseBigIntInBase` and gets
`x := BigInt(idx)`; the share list is sorted ascending by `idx` (the
source's comparator sort, modelled by a stable insertion sort — identical
output).  If the search ends with no candidate, the source reads
`best.agrees` / `best.secretF0` off the `{agreeCount: -1}` sentinel and
crashes with a `TypeError` (`runtimeTypeError` here). -/
def solveShamirLike (n k : Nat) (raw : List RawShare) :
    Except JsError SolveResult := do
  let parsed ← raw.mapM (fun r => do
    let y ← parseBigIntInBase r.value r.base
    pure (⟨r.idx, r.idx, y⟩ : Share))
  let shares := List.insertionSort (fun a b => a.idx ≤ b.idx) parsed
  let best ← searchLoop shares n (combinations (List.range shares.length) k) none
  match best with
  | none => .error .runtimeTypeError
  | some b => do
    let cls ← classify shares n b.agrees
    pure ⟨k, (k : Int) - 1, b.secretF0, cls.1, cls.2⟩

/-- C2.  The concrete scenario: n=4, k=3, shares
(1,10,"6"), (2,10,"15"), (3,10,"28"), (4,10,"999"); the solver returns
secret f(0) = 1, consistent indices [1,2,3], inconsistent indices [4]. -/
theorem solveShamirLike_concrete :
    solveShamirLike 4 3
      [⟨1, 10, ['6']⟩, ⟨2, 10, ['1', '5']⟩, ⟨3, 10, ['2', '8']⟩,
       ⟨4, 10, ['9', '9', '9']⟩] =
    .ok ⟨3, 2, 1, [1, 2, 3], [4]⟩ := rfl

/-- C1 (code bug).  On an input where no k-subset interpolates to an
integer at 0 — here n=2, k=2, shares (1,10,"0"), (3,10,"1"), whose line has
f(0) = -1/2 — the source does not raise a `NoConsistentReconstruction`
error (no such error exists anywhere in the code); it crashes reading
`best.agrees[i]` off the never-replaced `{agreeCount: -1}` sentinel, an
uncaught `TypeError`. -/
theorem solveShamirLike_no_candidate_crash :
    solveShamirLike 2 2 [⟨1, 10, ['0']⟩, ⟨3, 10, ['1']⟩] =
      .error .runtimeTypeError := rfl

theorem mapM_ok_forall2 {α β : Type} (f : α → Except JsError β) :
    ∀ (l : List α) (res : List β), l.mapM f = .ok res →
      List.Forall₂ (fun a b => f a = .ok b) l res := by
  intro l
  induction l with
  | nil =>
    intro res h
    rw [List.mapM_nil] at h
    injection h with h
    subst h
    exact List.Forall₂.nil
  | cons a l ih =>
    intro res h
    rw [List.mapM_cons] at h
    cases hfa : f a with
    | error e => rw [hfa, error_bind] at h; exact absurd h (by simp)
    | ok b =>
      rw [hfa, ok_bind] at h
      cases hrest : l.mapM f with
      | error e => rw [hrest, error_bind] at h; exact absurd h (by simp)
      | ok bs =>
        rw [hrest, ok_bind] at h
        injection h with h
        subst h
        exact List.Forall₂.cons hfa (ih bs hrest)

theorem mapM_ok_length {α β : Type} (f : α → Except JsError β)
    (l : List α) (res : List β) (h : l.mapM f = .ok res) :
    res.length = l.length :=
  (List.Forall₂.length_eq (mapM_ok_forall2 f l res h)).symm

/-- An `evalSubset` candidate counts agreements over all `n` shares: its
mask has length `n` and its count is the number of `true` flags. -/
theorem evalSubset_cand_shape {shares : List Share} {n : Nat} {idxs : List Nat}
    {c : Cand} (h : evalSubset shares n idxs = .ok (some c)) :
    c.agrees.length = n ∧ c.agreeCount = c.agrees.count true ∧
    c.agreeCount ≤ n ∧ c.subset = idxs := by
  unfold evalSubset at h
  cases hsub : idxs.mapM (fun i => do
      let s ← getShare shares i
      pure (⟨s.x, s.y⟩ : Pt)) with
  | error e => rw [hsub, error_bind] at h; exact absurd h (by simp)
  | ok subset =>
    rw [hsub, ok_bind] at h
    cases hf0 : lagrangeEvalAt subset 0 with
    | error e => rw [hf0, error_bind] at h; exact absurd h (by simp)
    | ok f0 =>
      rw [hf0, ok_bind] at h
      by_cases hd : f0.d = 1
      · rw [if_pos hd] at h
        cases hfl : agreeFlags shares subset n with
        | error e => rw [hfl, error_bind] at h; exact absurd h (by simp)
        | ok flags =>
          rw [hfl, ok_bind] at h
          injection h with h
          injection h with h
          subst h
          have hlen : flags.length = n :=
            by simpa using mapM_ok_length _ _ _ hfl
          refine ⟨hlen, rfl, ?_, rfl⟩
          calc flags.count true ≤ flags.length := List.count_le_length _ _
          _ = n := hlen
      · rw [if_neg hd] at h
        injection h with h
        exact Option.noConfusion h

/-- Spec-side: the candidate stream the search consumes — each subset's
candidate, in order, discarded subsets skipped. -/
def candList (shares : List Share) (n : Nat) (ss : List (List Nat)) : List Cand :=
  ss.filterMap (fun s => match evalSubset shares n s with
    | .ok (some c) => some c
    | _ => none)

/-- Spec-side: truncate a candidate stream at (and including) its first
full-agreement candidate. -/
def untilFull (n : Nat) : List Cand → List Cand
  | [] => []
  | c :: r => if c.agreeCount = n then [c] else c :: untilFull n r

/-- Spec-side: the search loop stripped of effects — replace the best on
strictly greater count, stop at a full-agreement candidate. -/
def searchModel (n : Nat) : List Cand → Option Cand → Option Cand
  | [], best => best
  | c :: r, best =>
    if (c.agreeCount : Int) > bestCount best then
      if c.agreeCount = n then some c else searchModel n r (some c)
    else searchModel n r best

theorem searchLoop_cons_none (shares : List Share) (n : Nat) (s : List Nat)
    (rest : List (List Nat)) (best : Option Cand)
    (hv : evalSubset shares n s = .ok none) :
    searchLoop shares n (s :: rest) best = searchLoop shares n rest best := by
  rw [searchLoop, hv, ok_bind]

theorem searchLoop_cons_some (shares : List Share) (n : Nat) (s : List Nat)
    (rest : List (List Nat)) (best : Option Cand) (c : Cand)
    (hv : evalSubset shares n s = .ok (some c)) :
    searchLoop shares n (s :: rest) best =
      if (c.agreeCount : Int) > bestCount best then
        if c.agreeCount = n then .ok (some c)
        else searchLoop shares n rest (some c)
      else searchLoop shares n rest best := by
  rw [searchLoop, hv, ok_bind]

theorem candList_cons_none {shares : List Share} {n : Nat} {s : List Nat}
    (rest : List (List Nat)) (hv : evalSubset shares n s = .ok none) :
    candList shares n (s :: rest) = candList shares n rest := by
  unfold candList
  simp only [List.filterMap_cons, hv]

theorem candList_cons_some {shares : List Share} {n : Nat} {s : List Nat}
    (rest : List (List Nat)) {c : Cand}
    (hv : evalSubset shares n s = .ok (some c)) :
    candList shares n (s :: rest) = c :: candList shares n rest := by
  unfold candList
  simp only [List.filterMap_cons, hv]

/-- With every subset evaluating cleanly, the effectful search loop equals
the pure model run on the candidate stream. -/
theorem searchLoop_eq_model (shares : List Share) (n : Nat) :
    ∀ (ss : List (List Nat)),
      (∀ s ∈ ss, ∃ v, evalSubset shares n s = .ok v) →
      ∀ best, searchLoop shares n ss best =
        .ok (searchModel n (candList shares n ss) best) := by
  intro ss
  induction ss with
  | nil => intro _ best; rfl
  | cons s rest ih =>
    intro hok best
    obtain ⟨v, hv⟩ := hok s (List.mem_cons_self _ _)
    have hrest := fun t ht => hok t (List.mem_cons_of_mem _ ht)
    cases v with
    | none =>
      rw [searchLoop_cons_none shares n s rest best hv, ih hrest best,
        candList_cons_none rest hv]
    | some c =>
      rw [searchLoop_cons_some shares n s rest best c hv,
        candList_cons_some rest hv, searchModel]
      by_cases himp : (c.agreeCount : Int) > bestCount best
      · rw [if_pos himp, if_pos himp]
        by_cases hfull : c.agreeCount = n
        · rw [if_pos hfull, if_pos hfull]
        · rw [if_neg hfull, if_neg hfull, ih hrest (some c)]
      · rw [if_neg himp, if_neg himp, ih hrest best]

/-- Characterization of the pure search model: starting from a
less-than-full best, it either keeps the best (everything up to the first
full candidate fails to beat it) or returns the earliest maximum of the
truncated stream. -/
theorem searchModel_spec (n : Nat) :
    ∀ (E : List Cand) (ob : Option Cand), bestCount ob < (n : Int) →
      (∀ c ∈ E, c.agreeCount ≤ n) →
      (searchModel n E ob = ob ∧
        ∀ c ∈ untilFull n E, (c.agreeCount : Int) ≤ bestCount ob) ∨
      (∃ pre c post, untilFull n E = pre ++ c :: post ∧
        searchModel n E ob = some c ∧
        bestCount ob < (c.agreeCount : Int) ∧
        (∀ b ∈ pre, b.agreeCount < c.agreeCount) ∧
        (∀ b ∈ post, b.agreeCount ≤ c.agreeCount)) := by
  intro E
  induction E with
  | nil =>
    intro ob _ _
    left
    exact ⟨rfl, by simp [untilFull]⟩
  | cons c r ih =>
    intro ob hob hE
    have hcn : c.agreeCount ≤ n := hE c (List.mem_cons_self _ _)
    have hEr : ∀ b ∈ r, b.agreeCount ≤ n := fun b hb => hE b (List.mem_cons_of_mem _ hb)
    rw [searchModel]
    by_cases himp : (c.agreeCount : Int) > bestCount ob
    · rw [if_pos himp]
      by_cases hfull : c.agreeCount = n
      · rw [if_pos hfull]
        right
        refine ⟨[], c, [], ?_, rfl, himp, by simp, by simp⟩
        rw [untilFull, if_pos hfull]
        rfl
      · rw [if_neg hfull]
        have hob' : bestCount (some c) < (n : Int) := by
          simp only [bestCount]
          omega
        rcases ih (some c) hob' hEr with ⟨hres, hbound⟩ |
          ⟨pre, c', post, heq, hres, hgt, hpre, hpost⟩
        · right
          refine ⟨[], c, untilFull n r, ?_, hres, himp, by simp, ?_⟩
          · rw [untilFull, if_neg hfull]
            rfl
          · intro b hb
            have := hbound b hb
            simp only [bestCount] at this
            omega
        · right
          refine ⟨c :: pre, c', post, ?_, hres, ?_, ?_, hpost⟩
          · rw [untilFull, if_neg hfull, heq]
            rfl
          · simp only [bestCount] at hgt
            omega
          · intro b hb
            rcases List.mem_cons.1 hb with rfl | hb
            · simp only [bestCount] at hgt
              omega
            · exact hpre b hb
    · rw [if_neg himp]
      have hclt : c.agreeCount < n := by omega
      have hfull : ¬ c.agreeCount = n := by omega
      rcases ih ob hob hEr with ⟨hres, hbound⟩ |
        ⟨pre, c', post, heq, hres, hgt, hpre, hpost⟩
      · left
        refine ⟨hres, ?_⟩
        intro b hb
        rw [untilFull, if_neg hfull] at hb
        rcases List.mem_cons.1 hb with rfl | hb
        · omega
        · exact hbound b hb
      · right
        refine ⟨c :: pre, c', post, ?_, hres, hgt, ?_, hpost⟩
        · rw [untilFull, if_neg hfull, heq]
          rfl
        · intro b hb
          rcases List.mem_cons.1 hb with rfl | hb
          · omega
          · exact hpre b hb

theorem candList_mem_eval {shares : List Share} {n : Nat} {ss : List (List Nat)}
    {c : Cand} (hc : c ∈ candList shares n ss) :
    ∃ s ∈ ss, evalSubset shares n s = .ok (some c) := by
  unfold candList at hc
  rw [List.mem_filterMap] at hc
  obtain ⟨s, hs, hmatch⟩ := hc
  refine ⟨s, hs, ?_⟩
  cases hev : evalSubset shares n s with
  | error e => rw [hev] at hmatch; exact absurd hmatch (by simp)
  | ok v =>
    cases v with
    | none => rw [hev] at hmatch; exact absurd hmatch (by simp)
    | some c' =>
      rw [hev] at hmatch
      simp only [Option.some.injEq] at hmatch
      rw [hmatch]

theorem candList_counts {shares : List Share} {n : Nat} {ss : List (List Nat)} :
    ∀ c ∈ candList shares n ss, c.agreeCount ≤ n := by
  intro c hc
  obtain ⟨s, -, hev⟩ := candList_mem_eval hc
  exact (evalSubset_cand_shape hev).2.2.1

theorem searchLoop_early_exit_aux (shares : List Share) (n : Nat) :
    ∀ (pre : List (List Nat)) (best : Option Cand), bestCount best < (n : Int) →
      (∀ t ∈ pre, ∃ v, evalSubset shares n t = .ok v) →
      (∀ t ∈ pre, ∀ c', evalSubset shares n t = .ok (some c') → c'.agreeCount ≠ n) →
      ∀ (s : List Nat) (c : Cand), evalSubset shares n s = .ok (some c) →
        c.agreeCount = n →
      ∀ tail, searchLoop shares n (pre ++ s :: tail) best = .ok (some c) := by
  intro pre
  induction pre with
  | nil =>
    intro best hbest _ _ s c hev hfull tail
    rw [List.nil_append, searchLoop_cons_some shares n s tail best c hev]
    rw [if_pos (by omega), if_pos hfull]
  | cons t pre ih =>
    intro best hbest hok hnofull s c hev hfull tail
    obtain ⟨v, hv⟩ := hok t (List.mem_cons_self _ _)
    have hok' := fun u hu => hok u (List.mem_cons_of_mem _ hu)
    have hnofull' := fun u hu => hnofull u (List.mem_cons_of_mem _ hu)
    rw [List.cons_append]
    cases v with
    | none =>
      rw [searchLoop_cons_none shares n t _ best hv]
      exact ih best hbest hok' hnofull' s c hev hfull tail
    | some c' =>
      rw [searchLoop_cons_some shares n t _ best c' hv]
      have hc'n : c'.agreeCount ≠ n := hnofull t (List.mem_cons_self _ _) c' hv
      have hc'le : c'.agreeCount ≤ n := (evalSubset_cand_shape hv).2.2.1
      by_cases himp : (c'.agreeCount : Int) > bestCount best
      · rw [if_pos himp, if_neg hc'n]
        exact ih (some c') (by simp only [bestCount]; omega) hok' hnofull' s c hev hfull tail
      · rw [if_neg himp]
        exact ih best hbest hok' hnofull' s c hev hfull tail

/-- C5.  (1) When every candidate subset evaluates cleanly, the search
returns no candidate iff the (truncated-at-first-full-agreement) candidate
stream is empty, and otherwise returns a candidate of that stream that all
earlier candidates undercut strictly (so the first among ties wins) and no
candidate of the stream beats.  (2) As soon as a subset achieves agreement
count `n` (none before it having done so), the search returns that exact
subset's candidate, whatever subsets follow — they are never evaluated. -/
theorem searchLoop_best_spec (shares : List Share) (n : Nat) :
    (∀ ss : List (List Nat),
      (∀ s ∈ ss, ∃ v, evalSubset shares n s = .ok v) →
      ∃ r, searchLoop shares n ss none = .ok r ∧
        (r = none ↔ untilFull n (candList shares n ss) = []) ∧
        (∀ c, r = some c →
          ∃ pre post, untilFull n (candList shares n ss) = pre ++ c :: post ∧
            (∀ b ∈ pre, b.agreeCount < c.agreeCount) ∧
            (∀ b ∈ untilFull n (candList shares n ss), b.agreeCount ≤ c.agreeCount))) ∧
    (∀ (pre : List (List Nat)) (s : List Nat) (c : Cand) (tail : List (List Nat)),
      (∀ t ∈ pre, ∃ v, evalSubset shares n t = .ok v) →
      (∀ t ∈ pre, ∀ c', evalSubset shares n t = .ok (some c') → c'.agreeCount ≠ n) →
      evalSubset shares n s = .ok (some c) → c.agreeCount = n →
      searchLoop shares n (pre ++ s :: tail) none = .ok (some c)) := by
  constructor
  · intro ss hok
    refine ⟨searchModel n (candList shares n ss) none, searchLoop_eq_model shares n ss hok none, ?_⟩
    have hm := searchModel_spec n (candList shares n ss) none
      (by simp only [bestCount]; omega) candList_counts
    rcases hm with ⟨hres, hbound⟩ | ⟨pre, c, post, heq, hres, -, hpre, hpost⟩
    · rw [hres]
      constructor
      · constructor
        · intro _
          rw [List.eq_nil_iff_forall_not_mem]
          intro b hb
          have := hbound b hb
          simp only [bestCount] at this
          omega
        · intro _; rfl
      · intro c hc
        exact absurd hc (by simp)
    · rw [hres]
      constructor
      · constructor
        · intro h; exact absurd h (by simp)
        · intro h
          rw [heq] at h
          exact absurd h (by simp)
      · intro c₂ hc₂
        injection hc₂ with hc₂
        subst hc₂
        refine ⟨pre, post, heq, hpre, ?_⟩
        intro b hb
        rw [heq] at hb
        rcases List.mem_append.1 hb with hb | hb
        · exact le_of_lt (hpre b hb)
        · rcases List.mem_cons.1 hb with rfl | hb
          · exact le_refl _
          · exact hpost b hb
  · intro pre s c tail hok hnofull hev hfull
    exact searchLoop_early_exit_aux shares n pre none
      (by simp only [bestCount]; omega) hok hnofull s c hev hfull tail

/-- Witness for C5 at a concrete input: a single share (1, y=5), n=1, k=1;
the one subset `[0]` reconstructs f(0)=5 with full agreement. -/
theorem searchLoop_best_spec_witness :
    (∃ r, searchLoop [⟨1, 1, 5⟩] 1 [[0]] none = .ok r ∧
      (r = none ↔ untilFull 1 (candList [⟨1, 1, 5⟩] 1 [[0]]) = []) ∧
      (∀ c, r = some c →
        ∃ pre post, untilFull 1 (candList [⟨1, 1, 5⟩] 1 [[0]]) = pre ++ c :: post ∧
          (∀ b ∈ pre, b.agreeCount < c.agreeCount) ∧
          (∀ b ∈ untilFull 1 (candList [⟨1, 1, 5⟩] 1 [[0]]),
            b.agreeCount ≤ c.agreeCount))) ∧
    searchLoop [⟨1, 1, 5⟩] 1 ([] ++ [0] :: [[0], [0]]) none =
      .ok (some ⟨1, 5, [0], [true]⟩) :=
  ⟨(searchLoop_best_spec [⟨1, 1, 5⟩] 1).1 [[0]]
    (by
      intro s hs
      rw [List.mem_singleton] at hs
      subst hs
      exact ⟨some ⟨1, 5, [0], [true]⟩, rfl⟩),
   (searchLoop_best_spec [⟨1, 1, 5⟩] 1).2 [] [0] ⟨1, 5, [0], [true]⟩ [[0], [0]]
    (by simp) (by simp) rfl rfl⟩

theorem countP_ext {α : Type} (p q : α → Bool) (l : List α)
    (h : ∀ x ∈ l, p x = q x) : l.countP p = l.countP q := by
  rw [List.countP_eq_length_filter, List.countP_eq_length_filter,
    List.filter_congr h]

/-- A Bool list's `true` count, re-read positionally. -/
theorem count_true_eq_countP_range (flags : List Bool) :
    flags.count true =
      (List.range flags.length).countP (fun i => flags.getD i false) := by
  induction flags with
  | nil => rfl
  | cons b rest ih =>
    rw [List.length_cons, List.range_succ_eq_map]
    rw [List.countP_cons, List.countP_map]
    have hcomp : (List.range rest.length).countP
        ((fun i => (b :: rest).getD i false) ∘ Nat.succ) =
        (List.range rest.length).countP (fun i => rest.getD i false) := by
      apply countP_ext
      intro x _
      simp [List.getD_cons_succ]
    rw [hcomp, ← ih, List.count_cons]
    cases b <;> simp

/-- Distinct in-range positions whose flags are all true bound the true
count from below. -/
theorem nodup_length_le_count (p : List Nat) (flags : List Bool)
    (hnd : p.Nodup) (hmem : ∀ i ∈ p, i < flags.length)
    (htrue : ∀ i ∈ p, flags.getD i false = true) :
    p.length ≤ flags.count true := by
  rw [count_true_eq_countP_range]
  have hsub : ∀ i ∈ p,
      i ∈ (List.range flags.length).filter (fun i => flags.getD i false) := by
    intro i hi
    rw [List.mem_filter, List.mem_range]
    exact ⟨hmem i hi, htrue i hi⟩
  calc p.length = p.toFinset.card := (List.toFinset_card_of_nodup hnd).symm
  _ ≤ ((List.range flags.length).filter
        (fun i => flags.getD i false)).toFinset.card := by
      apply Finset.card_le_card
      intro i hi
      rw [List.mem_toFinset] at hi ⊢
      exact hsub i hi
  _ ≤ ((List.range flags.length).filter (fun i => flags.getD i false)).length :=
      List.toFinset_card_le _
  _ = (List.range flags.length).countP (fun i => flags.getD i false) :=
      (List.countP_eq_length_filter _ _).symm

theorem getPt_step_ok {shares : List Share} {i : Nat} {p : Pt} :
    (do
      let s ← getShare shares i
      pure (⟨s.x, s.y⟩ : Pt)) = Except.ok p ↔
    ∃ sh, shares.get? i = some sh ∧ p = ⟨sh.x, sh.y⟩ := by
  unfold getShare
  cases hg : shares.get? i with
  | none =>
    rw [error_bind]
    simp
  | some sh =>
    rw [ok_bind]
    constructor
    · intro h
      injection h with h
      exact ⟨sh, rfl, h.symm⟩
    · rintro ⟨sh', hsh', rfl⟩
      injection hsh' with hsh'
      rw [hsh']
      rfl

theorem evalSubset_ok_parts {shares : List Share} {n : Nat} {idxs : List Nat}
    {c : Cand} (h : evalSubset shares n idxs = .ok (some c)) :
    ∃ pts flags f0,
      idxs.mapM (fun i => do
        let s ← getShare shares i
        pure (⟨s.x, s.y⟩ : Pt)) = .ok pts ∧
      lagrangeEvalAt pts 0 = .ok f0 ∧ f0.d = 1 ∧
      agreeFlags shares pts n = .ok flags ∧
      c = ⟨flags.count true, f0.n, idxs, flags⟩ := by
  unfold evalSubset at h
  cases hsub : idxs.mapM (fun i => do
      let s ← getShare shares i
      pure (⟨s.x, s.y⟩ : Pt)) with
  | error e => rw [hsub, error_bind] at h; exact absurd h (by simp)
  | ok pts =>
    rw [hsub, ok_bind] at h
    cases hf0 : lagrangeEvalAt pts 0 with
    | error e => rw [hf0, error_bind] at h; exact absurd h (by simp)
    | ok f0 =>
      rw [hf0, ok_bind] at h
      by_cases hd : f0.d = 1
      · rw [if_pos hd] at h
        cases hfl : agreeFlags shares pts n with
        | error e => rw [hfl, error_bind] at h; exact absurd h (by simp)
        | ok flags =>
          rw [hfl, ok_bind] at h
          injection h with h
          injection h with h
          exact ⟨pts, flags, f0, rfl, hf0, hd, hfl, h.symm⟩
      · rw [if_neg hd] at h
        injection h with h
        exact Option.noConfusion h

theorem agreeFlags_get_true {shares : List Share} {pts : List Pt} {n : Nat}
    {flags : List Bool} (hfl : agreeFlags shares pts n = .ok flags)
    {i : Nat} (hi : i < n) {sh : Share} (hsh : shares.get? i = some sh)
    (hnode : lagrangeEvalAt pts sh.x = .ok ⟨sh.y, 1⟩) :
    flags.getD i false = true := by
  unfold agreeFlags at hfl
  have hall := mapM_ok_forall2 _ _ _ hfl
  rw [List.forall₂_iff_get] at hall
  obtain ⟨hlen, hget⟩ := hall
  have hlen' : flags.length = n := by simpa using hlen.symm
  have hi1 : i < (List.range n).length := by simpa using hi
  have hi2 : i < flags.length := by omega
  have hstep := hget i hi1 hi2
  have hgs : getShare shares i = .ok sh := by
    unfold getShare
    rw [hsh]
  rw [List.get_range] at hstep
  simp only [hgs, ok_bind, hnode] at hstep
  have : flags.get ⟨i, hi2⟩ = true := by
    have h2 := hstep.symm
    injection h2 with h2
    rw [h2]
    simp
  rw [List.getD_eq_get flags false hi2, this]

theorem evalSubset_count_ge {shares : List Share} {n : Nat} {idxs : List Nat}
    {c : Cand} (hn : n = shares.length)
    (h : evalSubset shares n idxs = .ok (some c)) :
    idxs.length ≤ c.agreeCount := by
  obtain ⟨pts, flags, f0, hmap, hf0, hd, hfl, hc⟩ := evalSubset_ok_parts h
  have hforall := mapM_ok_forall2 _ _ _ hmap
  have hlenpts : idxs.length = pts.length := List.Forall₂.length_eq hforall
  rw [List.forall₂_iff_get] at hforall
  obtain ⟨-, hget⟩ := hforall
  have hpoint : ∀ (j : Nat) (h1 : j < idxs.length) (h2 : j < pts.length),
      ∃ sh, shares.get? (idxs.get ⟨j, h1⟩) = some sh ∧
        pts.get ⟨j, h2⟩ = ⟨sh.x, sh.y⟩ := by
    intro j h1 h2
    exact getPt_step_ok.1 (hget j h1 h2)
  have hdist := lagrangeEvalAt_ok_distinct hf0
  have hflen : flags.length = n := by
    unfold agreeFlags at hfl
    simpa using mapM_ok_length _ _ _ hfl
  have hnodup : idxs.Nodup := by
    rw [List.nodup_iff_injective_get]
    intro j j' hjj
    by_contra hne
    obtain ⟨sh, hsh, hpt⟩ := hpoint j.1 j.2 (by omega)
    obtain ⟨sh', hsh', hpt'⟩ := hpoint j'.1 j'.2 (by omega)
    have hshsh : sh = sh' := by
      rw [show idxs.get ⟨j.1, j.2⟩ = idxs.get j from rfl, hjj] at hsh
      rw [show idxs.get ⟨j'.1, j'.2⟩ = idxs.get j' from rfl] at hsh'
      rw [hsh] at hsh'
      injection hsh'
    have hne2 : (⟨j.1, by omega⟩ : Fin pts.length) ≠ ⟨j'.1, by omega⟩ := by
      intro hcon
      rw [Fin.mk.injEq] at hcon
      exact hne (Fin.ext hcon)
    apply hdist _ _ hne2
    rw [hpt, hpt', hshsh]
  have htrue : ∀ i ∈ idxs, flags.getD i false = true := by
    intro i hi
    obtain ⟨⟨j, h1⟩, hj⟩ := List.mem_iff_get.1 hi
    obtain ⟨sh, hsh, hpt⟩ := hpoint j h1 (by omega)
    rw [hj] at hsh
    have hilt : i < n := by
      rw [hn]
      obtain ⟨hl, -⟩ := List.get?_eq_some.1 hsh
      exact hl
    have hnode := lagrangeEvalAt_node hf0 ⟨j, by omega⟩
    rw [show pts.get ⟨j, by omega⟩ = ⟨sh.x, sh.y⟩ from hpt] at hnode
    exact agreeFlags_get_true hfl hilt hsh hnode
  have hmemlt : ∀ i ∈ idxs, i < flags.length := by
    intro i hi
    obtain ⟨⟨j, h1⟩, hj⟩ := List.mem_iff_get.1 hi
    obtain ⟨sh, hsh, -⟩ := hpoint j h1 (by omega)
    rw [hj] at hsh
    obtain ⟨hl, -⟩ := List.get?_eq_some.1 hsh
    omega
  calc idxs.length ≤ flags.count true :=
      nodup_length_le_count idxs flags hnodup hmemlt htrue
  _ = c.agreeCount := by rw [hc]

theorem searchLoop_result_from (shares : List Share) (n : Nat) :
    ∀ (ss : List (List Nat)) (best r : Option Cand),
      searchLoop shares n ss best = .ok r →
      r = best ∨ ∃ s ∈ ss, ∃ c, evalSubset shares n s = .ok (some c) ∧ r = some c := by
  intro ss
  induction ss with
  | nil =>
    intro best r h
    injection h with h
    exact Or.inl h.symm
  | cons s rest ih =>
    intro best r h
    cases hev : evalSubset shares n s with
    | error e =>
      rw [searchLoop, hev, error_bind] at h
      exact absurd h (by simp)
    | ok v =>
      cases v with
      | none =>
        rw [searchLoop_cons_none shares n s rest best hev] at h
        rcases ih best r h with hr | ⟨t, ht, c, hc, hr⟩
        · exact Or.inl hr
        · exact Or.inr ⟨t, List.mem_cons_of_mem _ ht, c, hc, hr⟩
      | some c =>
        rw [searchLoop_cons_some shares n s rest best c hev] at h
        by_cases himp : (c.agreeCount : Int) > bestCount best
        · rw [if_pos himp] at h
          by_cases hfull : c.agreeCount = n
          · rw [if_pos hfull] at h
            injection h with h
            exact Or.inr ⟨s, List.mem_cons_self _ _, c, hev, h.symm⟩
          · rw [if_neg hfull] at h
            rcases ih (some c) r h with hr | ⟨t, ht, c', hc', hr⟩
            · exact Or.inr ⟨s, List.mem_cons_self _ _, c, hev, hr⟩
            · exact Or.inr ⟨t, List.mem_cons_of_mem _ ht, c', hc', hr⟩
        · rw [if_neg himp] at h
          rcases ih best r h with hr | ⟨t, ht, c', hc', hr⟩
          · exact Or.inl hr
          · exact Or.inr ⟨t, List.mem_cons_of_mem _ ht, c', hc', hr⟩

theorem nextCombo_length (n k : Nat) :
    ∀ (l : List Nat) (pos : Nat) (l' : List Nat),
      nextCombo n k pos l = some l' → l'.length = l.length := by
  intro l
  induction l with
  | nil => intro pos l' h; simp [nextCombo] at h
  | cons a rest ih =>
    intro pos l' h
    rw [nextCombo] at h
    cases hrec : nextCombo n k (pos + 1) rest with
    | some rest' =>
      rw [hrec] at h
      injection h with h
      subst h
      simp only [List.length_cons, ih (pos + 1) rest' hrec]
    | none =>
      rw [hrec] at h
      by_cases hmax : a = pos + n - k
      · rw [if_pos hmax] at h
        exact absurd h (by simp)
      · rw [if_neg hmax] at h
        injection h with h
        subst h
        simp

theorem comboGo_mem_length (n k : Nat) :
    ∀ (fuel : Nat) (idx s : List Nat), s ∈ comboGo n k fuel idx →
      s.length = idx.length := by
  intro fuel
  induction fuel with
  | zero => intro idx s h; simp [comboGo] at h
  | succ fuel ih =>
    intro idx s h
    rw [comboGo] at h
    rcases List.mem_cons.1 h with rfl | h
    · rfl
    · cases hrec : nextCombo n k 0 idx with
      | none => rw [hrec] at h; simp at h
      | some idx' =>
        rw [hrec] at h
        rw [ih idx' s h, nextCombo_length n k idx 0 idx' hrec]

theorem combinations_mem_length {α : Type} [Inhabited α] (arr : List α)
    (k : Nat) : ∀ s ∈ combinations arr k, s.length = k := by
  intro s hs
  unfold combinations at hs
  by_cases h0 : k = 0
  · rw [if_pos h0] at hs
    rw [List.mem_singleton] at hs
    subst hs
    simp [h0]
  · rw [if_neg h0] at hs
    rw [List.mem_map] at hs
    obtain ⟨idx, hidx, rfl⟩ := hs
    rw [List.length_map, comboGo_mem_length _ _ _ _ _ hidx, List.length_range]

theorem classify_spec (shares : List Share) (agrees : List Bool) :
    ∀ (is : List Nat), (∀ i ∈ is, i < shares.length) →
      ∀ acc : List Int × List Int,
      ∃ r, (is.foldlM (fun acc i => do
          let s ← getShare shares i
          if agrees.getD i false then pure (acc.1 ++ [s.idx], acc.2)
          else pure (acc.1, acc.2 ++ [s.idx])) acc) = .ok r ∧
        r.1.length = acc.1.length + is.countP (fun i => agrees.getD i false) := by
  intro is
  induction is with
  | nil =>
    intro _ acc
    exact ⟨acc, rfl, by simp⟩
  | cons i is ih =>
    intro hlt acc
    have hi := hlt i (List.mem_cons_self _ _)
    have hsh : shares.get? i = some (shares.get ⟨i, hi⟩) := List.get?_eq_get hi
    have hgs : getShare shares i = .ok (shares.get ⟨i, hi⟩) := by
      unfold getShare
      rw [hsh]
    rw [List.foldlM_cons]
    by_cases hag : agrees.getD i false
    · obtain ⟨r, hr, hrlen⟩ := ih (fun j hj => hlt j (List.mem_cons_of_mem _ hj))
        (acc.1 ++ [(shares.get ⟨i, hi⟩).idx], acc.2)
      refine ⟨r, ?_, ?_⟩
      · simp only [hgs, ok_bind, if_pos hag]
        exact hr
      · rw [hrlen, List.countP_cons, if_pos (show (fun i => agrees.getD i false) i = true from hag)]
        simp only [List.length_append, List.length_cons, List.length_nil]
        omega
    · obtain ⟨r, hr, hrlen⟩ := ih (fun j hj => hlt j (List.mem_cons_of_mem _ hj))
        (acc.1, acc.2 ++ [(shares.get ⟨i, hi⟩).idx])
      refine ⟨r, ?_, ?_⟩
      · simp only [hgs, ok_bind, if_neg hag]
        exact hr
      · rw [hrlen, List.countP_cons,
          if_neg (show ¬ (fun i => agrees.getD i false) i = true from hag)]
        simp

/-- C9.  (1) Whenever a candidate subset's interpolation at 0 succeeds with
an exact integer, the same interpolating polynomial evaluates exactly to
each basis point's own y at its own x — so every subset share agrees with
itself.  (2) Consequently, any result the solver returns marks at least k
shares consistent. -/
theorem basis_agreement_spec :
    (∀ (pts : List Pt) (f0 : Rational), lagrangeEvalAt pts 0 = .ok f0 →
      f0.d = 1 → ∀ i : Fin pts.length,
        lagrangeEvalAt pts (pts.get i).x = .ok ⟨(pts.get i).y, 1⟩) ∧
    (∀ (n k : Nat) (raw : List RawShare) (res : SolveResult),
      n = raw.length → solveShamirLike n k raw = .ok res →
      k ≤ res.consistentShareIndices.length) := by
  constructor
  · intro pts f0 h _ i
    exact lagrangeEvalAt_node h i
  · intro n k raw res hn hsolve
    unfold solveShamirLike at hsolve
    cases hparse : raw.mapM (fun r => do
        let y ← parseBigIntInBase r.value r.base
        pure (⟨r.idx, r.idx, y⟩ : Share)) with
    | error e =>
      rw [hparse, error_bind] at hsolve
      exact absurd hsolve (by simp)
    | ok parsed =>
      simp only [hparse, ok_bind] at hsolve
      obtain ⟨shares, hsharesdef⟩ :
          ∃ s, List.insertionSort (fun a b : Share => a.idx ≤ b.idx) parsed = s :=
        ⟨_, rfl⟩
      rw [hsharesdef] at hsolve
      have hslen : shares.length = n := by
        rw [← hsharesdef, List.length_insertionSort,
          mapM_ok_length _ _ _ hparse, hn]
      cases hsearch : searchLoop shares n
          (combinations (List.range shares.length) k) none with
      | error e =>
        rw [hsearch, error_bind] at hsolve
        exact absurd hsolve (by simp)
      | ok best =>
        rw [hsearch, ok_bind] at hsolve
        cases best with
        | none =>
          have hsolve2 : (Except.error JsError.runtimeTypeError :
              Except JsError SolveResult) = .ok res := hsolve
          exact absurd hsolve2 (by simp)
        | some b =>
          have hsolve2 : (do
              let cls ← classify shares n b.agrees
              pure (⟨k, (k : Int) - 1, b.secretF0, cls.1, cls.2⟩ : SolveResult) :
              Except JsError SolveResult) = .ok res := hsolve
          cases hcls : classify shares n b.agrees with
          | error e =>
            rw [hcls, error_bind] at hsolve2
            exact absurd hsolve2 (by simp)
          | ok cls =>
            rw [hcls, ok_bind] at hsolve2
            injection hsolve2 with hsolve2
            rcases searchLoop_result_from shares n _ none (some b) hsearch with
              hbad | ⟨s, hs, c, hev, hbc⟩
            · exact absurd hbad (by simp)
            · injection hbc with hbc
              subst hbc
              have hslength : s.length = k :=
                combinations_mem_length (List.range shares.length) k s hs
              have hcount : k ≤ b.agreeCount := by
                rw [← hslength]
                exact evalSubset_count_ge hslen.symm hev
              have hshape := evalSubset_cand_shape hev
              have hclslen : cls.1.length = b.agreeCount := by
                have hforall : ∀ i ∈ List.range n, i < shares.length := by
                  intro i hi
                  rw [List.mem_range] at hi
                  omega
                obtain ⟨r0, hr0, hr0len⟩ :=
                  classify_spec shares b.agrees (List.range n) hforall ([], [])
                have hcls2 : classify shares n b.agrees = .ok r0 := hr0
                rw [hcls] at hcls2
                injection hcls2 with hcls2
                subst hcls2
                rw [hr0len]
                have hcp : (List.range n).countP (fun i => b.agrees.getD i false) =
                    b.agrees.count true := by
                  rw [count_true_eq_countP_range, hshape.1]
                rw [hcp, ← hshape.2.1]
                simp
              rw [← hsolve2]
              simp only [hclslen]
              exact hcount

/-- Witness for C9 at concrete inputs: the single point (1,5) agrees with
its own constant interpolation, and the concrete 4-share scenario returns
at least k = 3 consistent shares. -/
theorem basis_agreement_spec_witness :
    (∀ i : Fin ([⟨1, 5⟩] : List Pt).length,
      lagrangeEvalAt [⟨1, 5⟩] ((([⟨1, 5⟩] : List Pt).get i).x) =
        .ok ⟨(([⟨1, 5⟩] : List Pt).get i).y, 1⟩) ∧
    3 ≤ (SolveResult.mk 3 2 1 [1, 2, 3] [4]).consistentShareIndices.length :=
  ⟨basis_agreement_spec.1 [⟨1, 5⟩] ⟨5, 1⟩ rfl rfl,
   basis_agreement_spec.2 4 3
     [⟨1, 10, ['6']⟩, ⟨2, 10, ['1', '5']⟩, ⟨3, 10, ['2', '8']⟩,
      ⟨4, 10, ['9', '9', '9']⟩]
     ⟨3, 2, 1, [1, 2, 3], [4]⟩ rfl rfl⟩
